import Mathlib

/-!
# Verification of the distributed coordination layer of Stockfish (cluster.cpp)

This file gives a shallow embedding of `src/cluster.cpp` (the MPI cluster
layer of the engine) and proves / refutes the frozen specification claims
about it.  Pure computations of the source are translated into Lean
functions; the MPI transport primitives are modelled by their documented
contracts (a broadcast delivers the root's value to every rank, a sum
all-reduce delivers the sum of all contributions, and so on), and state
mutation becomes explicit state passing.
-/

namespace Cluster

/-- The payload of a transposition-table entry.  `tt.h` is not part of the
sources under verification; the fields below are the ones `cluster.cpp`
reads from a `TTEntry` (`depth()`, `value()`, `eval()`, `move()`, `bound()`,
`pv_hit()`).  Modelled from the spec: "Opaque pair (key, entry) where entry
exposes depth, value, eval, move, bound, pv_hit". -/
structure TTEntryData where
  depth : Int
  value : Int
  eval : Int
  move : Nat
  bound : Nat
  pv_hit : Bool
deriving DecidableEq

/-- The zero-initialised (sentinel) entry, as produced by value
initialisation of a C++ `TTEntry`. -/
instance : Inhabited TTEntryData := ⟨⟨0, 0, 0, 0, 0, false⟩⟩

/-- `KeyedTTEntry = std::pair<Key, TTEntry>`: `.first` is the 64-bit key,
`.second` the entry. -/
structure KeyedTTEntry where
  first : Nat
  second : TTEntryData
deriving DecidableEq

/-- `KeyedTTEntry()`: value-initialised pair (zero key, sentinel entry). -/
instance : Inhabited KeyedTTEntry := ⟨0, default⟩

/-- Depth of the entry held by a `KeyedTTEntry` (`e.second.depth()`). -/
def dep (e : KeyedTTEntry) : Int := e.second.depth

/-! ## List access utilities

The C++ buffers are fixed-size arrays accessed by index; we embed them as
lists with total index access (`nth`, out-of-range reads give the
default entry, which never happens on the in-range accesses of the code). -/

/-- Total indexed read of a buffer. -/
def nth (l : List KeyedTTEntry) (i : Nat) : KeyedTTEntry := l.getD i default

/-- Exchange the elements at positions `i` and `j` (the effect of
`std::swap(a[i], a[j])`, used by the `std::pop_heap` / `std::push_heap`
algorithms). -/
def lswap (l : List KeyedTTEntry) (i j : Nat) : List KeyedTTEntry :=
  (l.set i (nth l j)).set j (nth l i)

/-! ## The binary heap of `ThreadTTCache`

`ClusterCache::replace` maintains `buffer` as a `std::` heap for the
comparator `compare(lhs, rhs) = lhs.second.depth() > rhs.second.depth()`,
i.e. a binary min-heap keyed by depth whose front is the shallowest entry.
`siftDown` / `siftUp` below are the standard heap restoration passes; they
realise the contracts of `std::pop_heap` and `std::push_heap` for that
comparator. -/

/-- Parent index in the implicit binary tree of the heap array. -/
def hparent (i : Nat) : Nat := (i - 1) / 2

/-- The binary min-heap-by-depth property on the first `m` positions of a
buffer: every non-root node is at least as deep as its parent. -/
def IsHeapUpTo (l : List KeyedTTEntry) (m : Nat) : Prop :=
  ∀ i, i < m → 0 < i → dep (nth l (hparent i)) ≤ dep (nth l i)

instance (l : List KeyedTTEntry) (m : Nat) : Decidable (IsHeapUpTo l m) := by
  unfold IsHeapUpTo; infer_instance

/-- The heap property on the whole buffer. -/
def IsMinHeap (l : List KeyedTTEntry) : Prop := IsHeapUpTo l l.length

instance (l : List KeyedTTEntry) : Decidable (IsMinHeap l) := by
  unfold IsMinHeap; infer_instance

/-- The shallowest child of node `i` among its children that lie within the
first `m` positions (assuming `2*i+1 < m`, so at least one child exists). -/
def minChild (l : List KeyedTTEntry) (i m : Nat) : Nat :=
  if 2 * i + 2 < m ∧ dep (nth l (2 * i + 2)) < dep (nth l (2 * i + 1)) then
    2 * i + 2
  else 2 * i + 1

/-- Restore the heap property downwards from position `i`, within the first
`m` positions: repeatedly swap the current node with its shallowest child
while that child is strictly shallower.  The first argument is fuel
(structural recursion); since the position at least doubles at every step,
any fuel of at least `m - i` completes the pass. -/
def siftDown : Nat → List KeyedTTEntry → Nat → Nat → List KeyedTTEntry
  | 0, l, _, _ => l
  | fuel + 1, l, i, m =>
    if 2 * i + 1 < m then
      if dep (nth l (minChild l i m)) < dep (nth l i) then
        siftDown fuel (lswap l i (minChild l i m)) (minChild l i m) m
      else l
    else l

/-- Restore the heap property upwards from position `j`: repeatedly swap
the current node with its parent while it is strictly shallower than the
parent.  Any fuel of at least `j` completes the pass. -/
def siftUp : Nat → List KeyedTTEntry → Nat → List KeyedTTEntry
  | 0, l, _ => l
  | fuel + 1, l, j =>
    if 0 < j then
      if dep (nth l j) < dep (nth l (hparent j)) then
        siftUp fuel (lswap l j (hparent j)) (hparent j)
      else l
    else l

/-- `std::pop_heap(begin, end, compare)`: move the front (shallowest) entry
to the last position and restore the heap property on the remaining
prefix. -/
def cppPopHeap (l : List KeyedTTEntry) : List KeyedTTEntry :=
  if l.length ≤ 1 then l
  else siftDown (l.length - 1) (lswap l 0 (l.length - 1)) 0 (l.length - 1)

/-- `std::push_heap(begin, end, compare)`: sift the last entry up into a
buffer whose prefix already satisfies the heap property. -/
def cppPushHeap (l : List KeyedTTEntry) : List KeyedTTEntry :=
  siftUp (l.length - 1) l (l.length - 1)

/-- The heap mutation performed by `ClusterCache::replace` when the
admission test succeeds: `std::pop_heap(...)`; `buffer.back() = value;`
`std::push_heap(...)`. -/
def replaceBuffer (l : List KeyedTTEntry) (value : KeyedTTEntry) :
    List KeyedTTEntry :=
  cppPushHeap ((cppPopHeap l).set ((cppPopHeap l).length - 1) value)

/-! ## ClusterCache state -/

/-- The per-search-thread `ClusterCache` object: the thread's TT cache
(`buffer`, a `std::array<KeyedTTEntry, TTCacheSize>`, plus the attempt
counter `TTCacheCounter`) and the two send/recv wire buffers
`TTSendRecvBuffs[0/1]`, each `TTCacheSize * size()` entries long.
(`cluster.h` only declares these members; every operation on them is in
`cluster.cpp`.) -/
structure ClusterCache where
  buffer : List KeyedTTEntry
  TTCacheCounter : Nat
  buffs0 : List KeyedTTEntry
  buffs1 : List KeyedTTEntry
deriving DecidableEq

/-- `ClusterCache::ClusterCache()`: both wire buffers are filled with
`TTCacheSize * size` sentinel entries; the thread cache starts as
`TTCacheSize` sentinels; `TTCacheCounter` starts at zero (the constructor
also zeroes `sendRecvPosted`, which we keep outside this structure). -/
def initCC (C size : Nat) : ClusterCache :=
  { buffer := List.replicate C default
    TTCacheCounter := 0
    buffs0 := List.replicate (C * size) default
    buffs1 := List.replicate (C * size) default }

/-- `ClusterCache::replace(value)`: increment `TTCacheCounter`; if the
offered entry is strictly deeper than the front (shallowest) entry, pop
the front, write the offered entry into the freed last slot and push it
back into the heap, returning `true`; otherwise return `false`. -/
def ClusterCache.replace (cc : ClusterCache) (value : KeyedTTEntry) :
    Bool × ClusterCache :=
  if dep (nth cc.buffer 0) < dep value then
    (true, { cc with TTCacheCounter := cc.TTCacheCounter + 1
                     buffer := replaceBuffer cc.buffer value })
  else
    (false, { cc with TTCacheCounter := cc.TTCacheCounter + 1 })

/-! ## Offer sequences on a ThreadTTCache -/

/-- The cache state after a finite sequence of `replace` calls. -/
def applyOffers : ClusterCache → List KeyedTTEntry → ClusterCache
  | cc, [] => cc
  | cc, e :: es => applyOffers (cc.replace e).2 es

/-- The boolean results of a finite sequence of `replace` calls. -/
def offerResults : ClusterCache → List KeyedTTEntry → List Bool
  | _, [] => []
  | cc, e :: es => (cc.replace e).1 :: offerResults (cc.replace e).2 es

/-- `held` is a selection of the `C` deepest entries among `seen`: it is a
sub-multiset of `seen` of size `C`, and every entry of `seen` that was left
out is at most as deep as every held entry. -/
def IsTopSelection (C : Nat) (held seen : Multiset KeyedTTEntry) : Prop :=
  held ≤ seen ∧ Multiset.card held = C ∧
  ∀ h ∈ held, ∀ s ∈ seen - held, dep s ≤ dep h

/-! ## The ring exchange round (`ClusterCache::handle_buffer`) -/

/-- The four disjoint communicators duplicated from the world
communicator in `init()`. -/
inductive Comm where
  | InputComm
  | TTComm
  | MoveComm
  | SignalsComm
deriving DecidableEq

/-- One call `replace_tte->save(e.first, e.second.value(), e.second.pv_hit(),
e.second.bound(), e.second.depth(), e.second.move(), e.second.eval())`
made against the external TT after probing it with `e.first`.  The TT
itself is an external collaborator; we record the calls made to it. -/
structure SaveEvent where
  key : Nat
  value : Int
  pv_hit : Bool
  bound : Nat
  depth : Int
  move : Nat
  eval : Int
deriving DecidableEq

/-- The TT save event generated from a received `KeyedTTEntry`. -/
def toSaveEvent (e : KeyedTTEntry) : SaveEvent :=
  ⟨e.first, e.second.value, e.second.pv_hit, e.second.bound,
    e.second.depth, e.second.move, e.second.eval⟩

/-- The pair of non-blocking requests posted at the end of
`handle_buffer`: `MPI_Irecv` into buffer `recvBuf` from `recvSrc` and
`MPI_Isend` of buffer `sendBuf` to `sendDst`, both with `tag` on
`comm`. -/
structure Post where
  recvBuf : Nat
  recvSrc : Nat
  sendBuf : Nat
  sendDst : Nat
  tag : Nat
  comm : Comm
deriving DecidableEq

/-- `TTSendRecvBuffs[p]`. -/
def activeBuff (cc : ClusterCache) (p : Nat) : List KeyedTTEntry :=
  if p = 0 then cc.buffs0 else cc.buffs1

/-- Overwrite `TTSendRecvBuffs[p]`. -/
def setActive (cc : ClusterCache) (p : Nat) (w : List KeyedTTEntry) :
    ClusterCache :=
  if p = 0 then { cc with buffs0 := w } else { cc with buffs1 := w }

/-- The inner copy loop `size_t i = irank * TTCacheSize; for (auto&& e :
buffer) TTSendRecvBuffs[p][i++] = e;`. -/
def writeFrom : List KeyedTTEntry → Nat → List KeyedTTEntry →
    List KeyedTTEntry
  | wire, _, [] => wire
  | wire, i, e :: es => writeFrom (wire.set i e) (i + 1) es

/-- The TT save events generated by the slot of rank `irank` of a wire
buffer: one event per index `i ∈ [irank*C, (irank+1)*C)`, in order. -/
def slotEvents (wire : List KeyedTTEntry) (irank C : Nat) :
    List SaveEvent :=
  (List.range C).map (fun j => toSaveEvent (nth wire (irank * C + j)))

/-- One iteration of the rank loop of `handle_buffer`, on the pair
(cache state, TT save events so far). -/
def hbStep (rank C p : Nat) (acc : ClusterCache × List SaveEvent)
    (irank : Nat) : ClusterCache × List SaveEvent :=
  if irank = rank then
    ({ setActive acc.1 p
        (writeFrom (activeBuff acc.1 p) (irank * C) acc.1.buffer) with
        buffer := List.replicate C default
        TTCacheCounter := 0 }, acc.2)
  else
    (acc.1, acc.2 ++ slotEvents (activeBuff acc.1 p) irank C)

/-- `ClusterCache::handle_buffer()`.  The cache (with the counter
`sendRecvPosted` passed alongside) is transformed; the function also
returns the list of TT save events performed and the pair of
non-blocking requests posted at the end. -/
def handle_buffer (rank size C : Nat) (cc : ClusterCache) (srp : Nat) :
    (ClusterCache × Nat) × List SaveEvent × Post :=
  ((((List.range size).foldl (hbStep rank C (srp % 2)) (cc, [])).1,
      srp + 1),
   ((List.range size).foldl (hbStep rank C (srp % 2)) (cc, [])).2,
   { recvBuf := (srp + 1) % 2
     recvSrc := (rank + size - 1) % size
     sendBuf := (srp + 1 + 1) % 2
     sendDst := (rank + 1) % size
     tag := 42
     comm := Comm.TTComm })

/-! ## The throttled save path (`Cluster::save`) -/

/-- Modelled from the spec: depths are measured in plies ("only those
with depth > 3 plies are admitted"); `ONE_PLY` is the depth unit of
`types.h`, which is not among the sources, and equals one ply. -/
def ONE_PLY : Int := 1

/-- The per-search-thread state touched by `Cluster::save`: the TTsaves
counter and the thread's ClusterCache. -/
structure ThreadState where
  TTsaves : Nat
  ttCache : ClusterCache
deriving DecidableEq

/-- Everything produced by one call to `Cluster::save`: the updated
thread state, the global `sendRecvPosted` counter, the main thread's
`callsCnt`, the argument tuple of the unconditional plain `tte->save`,
whether a `handle_buffer` round was performed, and the requests posted
and TT save events performed by that round (none when no round ran). -/
structure SaveResult where
  thread : ThreadState
  sendRecvPosted : Nat
  callsCnt : Nat
  tteSave : SaveEvent
  roundPerformed : Bool
  post : Option Post
  ttEvents : List SaveEvent
deriving DecidableEq

/-- `Cluster::save(thread, tte, k, v, PvHit, b, d, m, ev)`.  The
`MPI_Testall` outcome is the oracle input `flag`; `isMain` tells whether
`thread == Threads.main()`.  The entry offered to the thread cache is
`KeyedTTEntry(k, *tte)` where `*tte` holds the data just saved. -/
def save (rank size C : Nat) (isMain flag : Bool) (ts : ThreadState)
    (srp callsCnt : Nat) (k : Nat) (v : Int) (PvHit : Bool) (b : Nat)
    (d : Int) (m : Nat) (ev : Int) : SaveResult :=
  if 3 * ONE_PLY < d then
    if C ≤ (ts.ttCache.replace
        ⟨k, ⟨d, v, ev, m, b, PvHit⟩⟩).2.TTCacheCounter then
      if flag then
        { thread := ⟨ts.TTsaves + 1, (handle_buffer rank size C
            (ts.ttCache.replace ⟨k, ⟨d, v, ev, m, b, PvHit⟩⟩).2 srp).1.1⟩
          sendRecvPosted := (handle_buffer rank size C
            (ts.ttCache.replace ⟨k, ⟨d, v, ev, m, b, PvHit⟩⟩).2 srp).1.2 + 1
          callsCnt := if isMain then 0 else callsCnt
          tteSave := ⟨k, v, PvHit, b, d, m, ev⟩
          roundPerformed := true
          post := some (handle_buffer rank size C
            (ts.ttCache.replace ⟨k, ⟨d, v, ev, m, b, PvHit⟩⟩).2 srp).2.2
          ttEvents := (handle_buffer rank size C
            (ts.ttCache.replace ⟨k, ⟨d, v, ev, m, b, PvHit⟩⟩).2 srp).2.1 }
      else
        { thread := ⟨ts.TTsaves + 1,
            (ts.ttCache.replace ⟨k, ⟨d, v, ev, m, b, PvHit⟩⟩).2⟩
          sendRecvPosted := srp, callsCnt := callsCnt
          tteSave := ⟨k, v, PvHit, b, d, m, ev⟩
          roundPerformed := false, post := none, ttEvents := [] }
    else
      { thread := ⟨ts.TTsaves + 1,
          (ts.ttCache.replace ⟨k, ⟨d, v, ev, m, b, PvHit⟩⟩).2⟩
        sendRecvPosted := srp, callsCnt := callsCnt
        tteSave := ⟨k, v, PvHit, b, d, m, ev⟩
        roundPerformed := false, post := none, ttEvents := [] }
  else
    { thread := ts, sendRecvPosted := srp, callsCnt := callsCnt
      tteSave := ⟨k, v, PvHit, b, d, m, ev⟩
      roundPerformed := false, post := none, ttEvents := [] }

/-! ## End-of-search move selection (`Cluster::pick_moves`) -/

/-- The record gathered from every rank: `{move, ponder, depth, score,
rank}`, five machine integers. -/
structure MoveInfo where
  move : Int
  ponder : Int
  depth : Int
  score : Int
  rank : Int
deriving DecidableEq

instance : Inhabited MoveInfo := ⟨⟨0, 0, 0, 0, 0⟩⟩

/-- `minScore`: initialised to `pMoveInfo[0].score` and lowered over all
gathered records. -/
def minScoreOf (mis : List MoveInfo) : Int :=
  mis.foldl (fun acc mi => min acc mi.score) (mis.headD default).score

/-- The vote map built on the root: every key starts at zero and every
record adds `score - minScore + depth` to its move's total. -/
def votesOf (mis : List MoveInfo) : Int → Int :=
  mis.foldl
    (fun g mi => fun x =>
      if x = mi.move then g x + (mi.score - minScoreOf mis + mi.depth)
      else g x)
    (fun _ => 0)

/-- The selection loop: starting from the root's own record
(`pMoveInfo[0]`) and its vote, replace the candidate whenever a record's
move has a strictly larger vote total. -/
def selectBest (mis : List MoveInfo) : MoveInfo :=
  (mis.foldl
    (fun acc mi =>
      if votesOf mis mi.move > acc.2 then (mi, votesOf mis mi.move)
      else acc)
    ((mis.headD default), votesOf mis (mis.headD default).move)).1

/-- `Cluster::pick_moves` as observed by every rank: the winning record
(broadcast to all ranks) and whether a PV transfer to the root occurs
(`mi.rank != 0`). -/
def pick_moves (mis : List MoveInfo) : MoveInfo × Bool :=
  (selectBest mis, (selectBest mis).rank != 0)

/-- The selection fold of `pick_moves`, abstracted over the vote
function (definitionally equal to the fold inside `selectBest`). -/
def argFold (v : MoveInfo → Int) (l : List MoveInfo) (b : MoveInfo) :
    MoveInfo × Int :=
  l.foldl (fun acc mi => if v mi > acc.2 then (mi, v mi) else acc) (b, v b)

/-- The gathered records of the concrete voting scenario:
moves A = 1 and B = 2, records (A,100,20), (A,100,20), (B,100,21),
(B,95,22) from ranks 0..3. -/
def wMIs : List MoveInfo :=
  [⟨1, 0, 20, 100, 0⟩, ⟨1, 0, 20, 100, 1⟩,
   ⟨2, 0, 21, 100, 2⟩, ⟨2, 0, 22, 95, 3⟩]

/-! ## The input relay (`Cluster::getline`) -/

/-- The root side of `Cluster::getline`: a local `std::getline` whose
outcome is `lineRead` (`none` models end of file, on which C++
`std::getline` clears the string).  Returns the success flag `state`,
the root's string, and the broadcast length and payload
(`vec.assign(str.begin(), str.end()); size = vec.size();`). -/
def getline_root (lineRead : Option String) :
    Bool × String × Nat × List Char :=
  match lineRead with
  | some s => (true, s, s.toList.length, s.toList)
  | none => (false, "", 0, [])

/-- The non-root side: resize to the broadcast length, receive the
payload bytes, rebuild the string, and receive the root's `state`. -/
def getline_nonroot (sz : Nat) (payload : List Char) (state : Bool) :
    Bool × String :=
  (state, String.mk ((payload.take sz)))

/-- The value returned by `Cluster::getline` on rank `r`, with the
broadcasts delivering the root's values intact. -/
def getline_rank (r : Nat) (lineRead : Option String) : Bool × String :=
  if r = 0 then
    ((getline_root lineRead).1, (getline_root lineRead).2.1)
  else
    getline_nonroot (getline_root lineRead).2.2.1
      (getline_root lineRead).2.2.2 (getline_root lineRead).1

/-- The results of one `getline` call across all `n` ranks. -/
def getline_all (n : Nat) (lineRead : Option String) :
    List (Bool × String) :=
  (List.range n).map (fun r => getline_rank r lineRead)

/-! ## The signal loop (`signals_send` / `signals_process` /
`signals_poll` / `signals_init` / `signals_sync`) -/

/-- 64-bit unsigned truncation (the signal counters are `uint64_t`). -/
def mod64 (x : Nat) : Nat := x % 18446744073709551616

/-- `uint64_t` subtraction `a - b`. -/
def sub64 (a b : Nat) : Nat :=
  (mod64 a + 18446744073709551616 - mod64 b) % 18446744073709551616

/-- The four-counter signal vector `{SIG_NODES, SIG_STOP, SIG_TB,
SIG_TTS}`. -/
structure SigVec where
  nodes : Nat
  stop : Nat
  tb : Nat
  tts : Nat
deriving DecidableEq

/-- The per-rank signal-loop state: the monotone call counter, whether
the non-blocking all-reduce request is outstanding, the send and recv
vectors, the derived `others` counters, the observed stop count, and the
thread pool's `stop` flag. -/
structure SignalsState where
  signalsCallCounter : Nat
  reqOutstanding : Bool
  signalsSend : SigVec
  signalsRecv : SigVec
  nodesSearchedOthers : Nat
  tbHitsOthers : Nat
  TTsavesOthers : Nat
  stopSignalsPosted : Nat
  threadsStop : Bool
deriving DecidableEq

/-- `signals_send()`: snapshot the thread-pool totals into the send
vector, post the non-blocking sum-all-reduce, and advance the call
counter. -/
def signals_send (localNodes localTb localTts : Nat) (stop : Bool)
    (s : SignalsState) : SignalsState :=
  { s with
    signalsSend := ⟨mod64 localNodes, if stop then 1 else 0,
      mod64 localTb, mod64 localTts⟩
    reqOutstanding := true
    signalsCallCounter := s.signalsCallCounter + 1 }

/-- The sum all-reduce over the contributions of all ranks (`MPI_SUM` of
`uint64_t`). -/
def allreduceSum (sends : List SigVec) : SigVec :=
  ⟨mod64 (sends.map (fun v => v.nodes)).sum,
   mod64 (sends.map (fun v => v.stop)).sum,
   mod64 (sends.map (fun v => v.tb)).sum,
   mod64 (sends.map (fun v => v.tts)).sum⟩

/-- Completion of the outstanding all-reduce: the transport writes the
reduced vector into `signalsRecv` and the request is no longer
outstanding. -/
def completeRecv (recv : SigVec) (s : SignalsState) : SignalsState :=
  { s with signalsRecv := recv, reqOutstanding := false }

/-- `signals_process()`: derive the `others` counters by subtracting the
own contribution from the reduced totals, record the stop count, and
propagate the stop flag. -/
def signals_process (s : SignalsState) : SignalsState :=
  { s with
    nodesSearchedOthers := sub64 s.signalsRecv.nodes s.signalsSend.nodes
    tbHitsOthers := sub64 s.signalsRecv.tb s.signalsSend.tb
    TTsavesOthers := sub64 s.signalsRecv.tts s.signalsSend.tts
    stopSignalsPosted := s.signalsRecv.stop
    threadsStop := s.threadsStop || decide (0 < s.signalsRecv.stop) }

/-- `signals_poll()`: test the outstanding request (`flag` is the test
outcome and `recv` the reduced vector it delivered); when complete,
process it and chain the next `signals_send`. -/
def signals_poll (flag : Bool) (recv : SigVec)
    (localNodes localTb localTts : Nat) (s : SignalsState) :
    SignalsState :=
  if flag then
    signals_send localNodes localTb localTts
      (signals_process (completeRecv recv s)).threadsStop
      (signals_process (completeRecv recv s))
  else s

/-- `signals_init()`: zero all counters and both vectors (the global
`sendRecvPosted` reset on the same line lives in `RankState`). -/
def signals_init (s : SignalsState) : SignalsState :=
  { s with
    stopSignalsPosted := 0
    tbHitsOthers := 0
    TTsavesOthers := 0
    nodesSearchedOthers := 0
    signalsCallCounter := 0
    signalsSend := ⟨0, 0, 0, 0⟩
    signalsRecv := ⟨0, 0, 0, 0⟩ }

/-- One oracle input for a `signals_poll` iteration of the spin loop of
`signals_sync`. -/
structure PollInput where
  flag : Bool
  recv : SigVec
  localNodes : Nat
  localTb : Nat
  localTts : Nat
deriving DecidableEq

/-- The spin loop of `signals_sync`: `while (stopSignalsPosted <
size()) signals_poll();`, consuming one oracle input per iteration;
`none` means the supplied trace was exhausted before the loop exited. -/
def sync_spin (size : Nat) : List PollInput → SignalsState →
    Option SignalsState
  | ins, s =>
    if size ≤ s.stopSignalsPosted then some s
    else
      match ins with
      | [] => none
      | i :: rest =>
        sync_spin size rest
          (signals_poll i.flag i.recv i.localNodes i.localTb i.localTts s)

/-- The maximum of the per-rank `signalsCallCounter`s, as computed by
the blocking `MPI_Allreduce(MAX)` of `signals_sync`. -/
def maxCounter (ss : List SignalsState) : Nat :=
  (ss.map (fun s => s.signalsCallCounter)).foldl Nat.max 0

/-- The rest of `signals_sync` on one rank, after the spin loop and the
max-all-reduce returning `globalMax`: a rank below the maximum waits and
issues one extra `signals_send`; every rank then waits on (and
processes) its outstanding request, whose result is `recv`. -/
def signals_sync_tail (globalMax : Nat)
    (localNodes localTb localTts : Nat) (recv : SigVec)
    (s : SignalsState) : SignalsState :=
  signals_process (completeRecv recv
    (if s.signalsCallCounter < globalMax then
      signals_send localNodes localTb localTts s.threadsStop
        { s with reqOutstanding := false }
    else s))

/-- How many extra `signals_send` calls `signals_sync` issues on a
rank. -/
def syncSendsIssued (globalMax : Nat) (s : SignalsState) : Nat :=
  if s.signalsCallCounter < globalMax then 1 else 0

/-! ## Cluster-wide counter accessors -/

/-- `Cluster::nodes_searched()` (MPI build): the lazily updated others
total plus the live local counter. -/
def nodes_searched (s : SignalsState) (localNodes : Nat) : Nat :=
  mod64 (s.nodesSearchedOthers + localNodes)

/-- `Cluster::tb_hits()` (MPI build). -/
def tb_hits (s : SignalsState) (localTb : Nat) : Nat :=
  mod64 (s.tbHitsOthers + localTb)

/-- `Cluster::TT_saves()` (MPI build). -/
def TT_saves (s : SignalsState) (localTts : Nat) : Nat :=
  mod64 (s.TTsavesOthers + localTts)

/-- `Cluster::nodes_searched()` in the build without the transport: just
the local thread-pool total. -/
def nodes_searched_noMPI (localNodes : Nat) : Nat := localNodes

/-- `Cluster::tb_hits()` without the transport. -/
def tb_hits_noMPI (localTb : Nat) : Nat := localTb

/-- `Cluster::TT_saves()` without the transport. -/
def TT_saves_noMPI (localTts : Nat) : Nat := localTts

/-- The signal states of a single rank (`size == 1`) reachable from
`signals_init` by complete signal rounds: each round snapshots local
counters, posts the all-reduce whose singleton sum is delivered, and
processes the result. -/
inductive Reach1 : SignalsState → Prop where
  | init : ∀ s, Reach1 (signals_init s)
  | step : ∀ s localNodes localTb localTts, Reach1 s →
      Reach1 (signals_process (completeRecv
        (allreduceSum
          [(signals_send localNodes localTb localTts s.threadsStop
            s).signalsSend])
        (signals_send localNodes localTb localTts s.threadsStop s)))

/-! ## The per-rank global state and its operations (for the
`sendRecvPosted` frame claim) -/

/-- The per-rank state relevant to `sendRecvPosted`: the thread's
ClusterCache and TTsaves counter, the atomic `sendRecvPosted`, the
signal state, and the main thread's `callsCnt`. -/
structure RankState where
  cache : ClusterCache
  TTsaves : Nat
  sendRecvPosted : Nat
  sig : SignalsState
  callsCnt : Nat
deriving DecidableEq

/-- `signals_init()` lifted: `signalsCallCounter = sendRecvPosted = 0`
zeroes the atomic too. -/
def rs_signals_init (rs : RankState) : RankState :=
  { rs with sig := signals_init rs.sig, sendRecvPosted := 0 }

/-- `signals_send()` lifted: touches only the signal state. -/
def rs_signals_send (localNodes localTb localTts : Nat) (stop : Bool)
    (rs : RankState) : RankState :=
  { rs with sig := signals_send localNodes localTb localTts stop rs.sig }

/-- `signals_process()` lifted. -/
def rs_signals_process (rs : RankState) : RankState :=
  { rs with sig := signals_process rs.sig }

/-- `signals_poll()` lifted. -/
def rs_signals_poll (flag : Bool) (recv : SigVec)
    (localNodes localTb localTts : Nat) (rs : RankState) : RankState :=
  { rs with
    sig := signals_poll flag recv localNodes localTb localTts rs.sig }

/-- `cluster_info()` lifted: it only reads state. -/
def rs_cluster_info (rs : RankState) : RankState := rs

/-- `ClusterCache::handle_buffer()` lifted: one ring-exchange round. -/
def rs_handle_buffer (rank size C : Nat) (rs : RankState) : RankState :=
  { rs with
    cache := (handle_buffer rank size C rs.cache rs.sendRecvPosted).1.1
    sendRecvPosted :=
      (handle_buffer rank size C rs.cache rs.sendRecvPosted).1.2 }

/-- `Cluster::save` lifted. -/
def rs_save (rank size C : Nat) (isMain flag : Bool) (k : Nat) (v : Int)
    (PvHit : Bool) (b : Nat) (d : Int) (m : Nat) (ev : Int)
    (rs : RankState) : RankState :=
  { rs with
    TTsaves := (save rank size C isMain flag ⟨rs.TTsaves, rs.cache⟩
      rs.sendRecvPosted rs.callsCnt k v PvHit b d m ev).thread.TTsaves
    cache := (save rank size C isMain flag ⟨rs.TTsaves, rs.cache⟩
      rs.sendRecvPosted rs.callsCnt k v PvHit b d m ev).thread.ttCache
    sendRecvPosted := (save rank size C isMain flag ⟨rs.TTsaves, rs.cache⟩
      rs.sendRecvPosted rs.callsCnt k v PvHit b d m ev).sendRecvPosted
    callsCnt := (save rank size C isMain flag ⟨rs.TTsaves, rs.cache⟩
      rs.sendRecvPosted rs.callsCnt k v PvHit b d m ev).callsCnt }

/-- `ClusterCache::ClusterCache()` lifted: the constructor also zeroes
`TTCacheCounter = sendRecvPosted = 0`. -/
def rs_cc_ctor (C size : Nat) (rs : RankState) : RankState :=
  { rs with cache := initCC C size, sendRecvPosted := 0 }

/-! ## The diagnostic line (`cluster_info`) -/

/-- The numbers printed by one `cluster_info(depth)` line, together with
the divisor used by all three per-second rates. -/
structure InfoLine where
  depth : Int
  signals : Nat
  sps : Int
  sendRecvs : Nat
  srpps : Int
  ttSaves : Nat
  ttSavesps : Int
  divisor : Int
deriving DecidableEq

/-- `Cluster::cluster_info(depth)`: `elapsed = Time.elapsed() + 1` and
every rate divides by that. -/
def cluster_info (depth : Int) (elapsed0 : Int)
    (sigCnt srp tts C size : Nat) : InfoLine :=
  { depth := depth / ONE_PLY
    signals := sigCnt
    sps := (sigCnt * 1000 : Int) / (elapsed0 + 1)
    sendRecvs := srp
    srpps := ((C * size * srp * 1000 : Nat) : Int) / (elapsed0 + 1)
    ttSaves := tts
    ttSavesps := (tts * 1000 : Int) / (elapsed0 + 1)
    divisor := elapsed0 + 1 }

/-! ## Concrete states used by the witnesses -/

/-- A shallow concrete entry (depth 1). -/
def wE1 : KeyedTTEntry := ⟨11, ⟨1, 0, 0, 0, 0, false⟩⟩

/-- A deep concrete entry (depth 5). -/
def wE5 : KeyedTTEntry := ⟨12, ⟨5, 0, 0, 0, 0, false⟩⟩

/-- A concrete entry of intermediate depth 3. -/
def wE3 : KeyedTTEntry := ⟨13, ⟨3, 7, 8, 9, 2, true⟩⟩

/-- A concrete two-entry ThreadTTCache state (a valid min-heap). -/
def wCC2 : ClusterCache := ⟨[wE1, wE5], 3, [], []⟩

/-- A concrete ClusterCache for a two-rank ring with `C = 1`. -/
def wHB : ClusterCache := ⟨[wE3], 1, [wE1, wE5], [wE5, wE1]⟩

/-- A concrete signal state with a given call counter (4 stop signals
posted, request outstanding). -/
def wSig (c : Nat) : SignalsState :=
  ⟨c, true, ⟨0, 0, 0, 0⟩, ⟨0, 0, 0, 0⟩, 0, 0, 0, 4, true⟩

/-- Four ranks at the end of the spin loop: three have issued 100
signal sends, one lags at 99 (the end-of-search drain scenario). -/
def wSS : List SignalsState := [wSig 100, wSig 100, wSig 100, wSig 99]

/-- A concrete per-rank state with `sendRecvPosted = 5`. -/
def wRank : RankState := ⟨wCC2, 0, 5, wSig 3, 7⟩

/-- The single-rank state after one complete signal round from a fresh
`signals_init` (local totals 5, 6, 7). -/
def wStep1 : SignalsState :=
  signals_process (completeRecv
    (allreduceSum [(signals_send 5 6 7 (signals_init (wSig 3)).threadsStop
      (signals_init (wSig 3))).signalsSend])
    (signals_send 5 6 7 (signals_init (wSig 3)).threadsStop
      (signals_init (wSig 3))))

/-! ## Basic lemmas about `nth`, `lswap` and `hparent` -/

theorem nth_eq_getElem (l : List KeyedTTEntry) {i : Nat} (h : i < l.length) :
    nth l i = l[i] := by
  simp [nth, List.getD_eq_getElem?_getD, List.getElem?_eq_getElem h]

theorem nth_set_self (l : List KeyedTTEntry) {i : Nat} (h : i < l.length)
    (x : KeyedTTEntry) : nth (l.set i x) i = x := by
  simp [nth, List.getD_eq_getElem?_getD, List.getElem?_set_self h]

theorem nth_set_other (l : List KeyedTTEntry) {i k : Nat} (h : i ≠ k)
    (x : KeyedTTEntry) : nth (l.set i x) k = nth l k := by
  simp [nth, List.getD_eq_getElem?_getD, List.getElem?_set_ne h]

theorem length_lswap (l : List KeyedTTEntry) (i j : Nat) :
    (lswap l i j).length = l.length := by
  simp [lswap]

theorem nth_lswap_fst (l : List KeyedTTEntry) {i j : Nat} (hi : i < l.length)
    (hj : j < l.length) : nth (lswap l i j) i = nth l j := by
  unfold lswap
  rcases eq_or_ne j i with h | h
  · subst h
    exact nth_set_self _ (by simpa using hj) _
  · rw [nth_set_other _ h, nth_set_self _ hi]

theorem nth_lswap_snd (l : List KeyedTTEntry) {i j : Nat} (hj : j < l.length) :
    nth (lswap l i j) j = nth l i := by
  unfold lswap
  exact nth_set_self _ (by simpa using hj) _

theorem nth_lswap_other (l : List KeyedTTEntry) {i j k : Nat} (hki : k ≠ i)
    (hkj : k ≠ j) : nth (lswap l i j) k = nth l k := by
  unfold lswap
  rw [nth_set_other _ (Ne.symm hkj), nth_set_other _ (Ne.symm hki)]

theorem count_getElem_le (l : List KeyedTTEntry) {i : Nat} (h : i < l.length)
    (a : KeyedTTEntry) :
    (if l[i] = a then 1 else 0) ≤ l.count a := by
  split
  · rename_i he
    have : a ∈ l := he ▸ List.getElem_mem h
    simpa [List.count_pos_iff] using this
  · exact Nat.zero_le _

theorem count_lswap (l : List KeyedTTEntry) {i j : Nat} (hi : i < l.length)
    (hj : j < l.length) (a : KeyedTTEntry) :
    (lswap l i j).count a = l.count a := by
  have hgi : nth l i = l[i] := nth_eq_getElem l hi
  have hgj : nth l j = l[j] := nth_eq_getElem l hj
  have hj2 : j < (l.set i (nth l j)).length := by simpa using hj
  have hset : (l.set i (nth l j))[j] = if i = j then nth l j else l[j] :=
    List.getElem_set hj2
  have hci : l[i] = a → 1 ≤ l.count a := fun hc => by
    have : a ∈ l := hc ▸ List.getElem_mem hi
    simpa [List.count_pos_iff] using this
  have hcj : l[j] = a → 1 ≤ l.count a := fun hc => by
    have : a ∈ l := hc ▸ List.getElem_mem hj
    simpa [List.count_pos_iff] using this
  unfold lswap
  rw [List.count_set _ _ _ _ hj2, List.count_set _ _ _ _ hi, hset]
  rcases eq_or_ne i j with h | h
  · subst h
    by_cases hc : l[i] = a
    · have := hci hc
      simp [hc, hgi]
      omega
    · simp [hc, hgi]
  · by_cases hc : l[i] = a <;> by_cases hd : l[j] = a
    · have := hci hc
      simp [hc, hd, hgi, hgj, h]
      omega
    · have := hci hc
      simp [hc, hd, hgi, hgj, h]
      omega
    · have := hcj hd
      simp [hc, hd, hgi, hgj, h]
    · simp [hc, hd, hgi, hgj, h]

theorem lswap_perm (l : List KeyedTTEntry) {i j : Nat} (hi : i < l.length)
    (hj : j < l.length) : List.Perm (lswap l i j) l := by
  rw [List.perm_iff_count]
  intro a
  exact count_lswap l hi hj a

theorem multiset_set_add (l : List KeyedTTEntry) {i : Nat} (h : i < l.length)
    (x : KeyedTTEntry) :
    (↑(l.set i x) : Multiset KeyedTTEntry) + {nth l i} = ↑l + {x} := by
  rw [Multiset.ext]
  intro a
  simp only [Multiset.count_add, Multiset.coe_count, Multiset.count_singleton]
  rw [List.count_set _ _ _ _ h, nth_eq_getElem l h]
  have hle := count_getElem_le l h a
  simp only [beq_iff_eq]
  by_cases h1 : l[i] = a <;> by_cases h2 : x = a
  · rw [if_pos h1, if_pos h2, if_pos h1.symm, if_pos h2.symm]
    rw [if_pos h1] at hle
    omega
  · rw [if_pos h1, if_neg h2, if_pos h1.symm, if_neg (fun hh => h2 hh.symm)]
    rw [if_pos h1] at hle
    omega
  · rw [if_neg h1, if_pos h2, if_neg (fun hh => h1 hh.symm), if_pos h2.symm]
    omega
  · rw [if_neg h1, if_neg h2, if_neg (fun hh => h1 hh.symm),
      if_neg (fun hh => h2 hh.symm)]
    omega

theorem hparent_lt {i : Nat} (h : 0 < i) : hparent i < i := by
  unfold hparent; omega

theorem hparent_child {k : Nat} (h : 0 < k) :
    k = 2 * hparent k + 1 ∨ k = 2 * hparent k + 2 := by
  unfold hparent; omega

theorem hparent_c1 (i : Nat) : hparent (2 * i + 1) = i := by
  unfold hparent; omega

theorem hparent_c2 (i : Nat) : hparent (2 * i + 2) = i := by
  unfold hparent; omega

/-! ## Correctness of the sift passes -/

theorem minChild_gt (l : List KeyedTTEntry) (i m : Nat) : i < minChild l i m := by
  unfold minChild; split <;> omega

theorem minChild_lt_m (l : List KeyedTTEntry) {i m : Nat} (h : 2 * i + 1 < m) :
    minChild l i m < m := by
  unfold minChild; split <;> omega

theorem minChild_parent (l : List KeyedTTEntry) (i m : Nat) :
    hparent (minChild l i m) = i := by
  unfold minChild
  split
  · exact hparent_c2 i
  · exact hparent_c1 i

theorem minChild_min (l : List KeyedTTEntry) {i m : Nat} {k : Nat} (hk : k < m)
    (hp : hparent k = i) (hk0 : 0 < k) :
    dep (nth l (minChild l i m)) ≤ dep (nth l k) := by
  have hc := hparent_child hk0
  rw [hp] at hc
  unfold minChild
  split
  · rename_i hcond
    rcases hc with h | h
    · rw [h]
      exact le_of_lt hcond.2
    · rw [h]
  · rename_i hcond
    rcases hc with h | h
    · rw [h]
    · rw [h]
      rcases Decidable.not_and_iff_or_not.mp hcond with h2 | h2
      · omega
      · exact le_of_not_lt h2

theorem siftDown_length (fuel : Nat) (l : List KeyedTTEntry) (i m : Nat) :
    (siftDown fuel l i m).length = l.length := by
  induction fuel generalizing l i with
  | zero => rfl
  | succ fuel ih =>
    rw [siftDown]
    split_ifs with h1 h2
    · rw [ih, length_lswap]
    · rfl
    · rfl

theorem siftDown_frame (fuel : Nat) (l : List KeyedTTEntry) (i m : Nat)
    (k : Nat) (hk : m ≤ k) : nth (siftDown fuel l i m) k = nth l k := by
  induction fuel generalizing l i with
  | zero => rfl
  | succ fuel ih =>
    rw [siftDown]
    split_ifs with h1 h2
    · rw [ih]
      have hcm := minChild_lt_m (l := l) h1
      exact nth_lswap_other l (by omega) (by omega)
    · rfl
    · rfl

theorem siftDown_perm (fuel : Nat) (l : List KeyedTTEntry) (i m : Nat) :
    m ≤ l.length → List.Perm (siftDown fuel l i m) l := by
  induction fuel generalizing l i with
  | zero => exact fun _ => List.Perm.refl _
  | succ fuel ih =>
    intro hm
    rw [siftDown]
    split_ifs with h1 h2
    · have hcm := minChild_lt_m (l := l) h1
      have hperm := lswap_perm l (i := i) (j := minChild l i m)
        (by omega) (by omega)
      exact List.Perm.trans (ih _ _ (by rw [length_lswap]; exact hm)) hperm
    · exact List.Perm.refl _
    · exact List.Perm.refl _

theorem siftDown_heap (fuel : Nat) (l : List KeyedTTEntry) (i m : Nat) :
    m - i ≤ fuel → m ≤ l.length →
    (∀ k, k < m → 0 < k → hparent k ≠ i →
      dep (nth l (hparent k)) ≤ dep (nth l k)) →
    (∀ k, k < m → hparent k = i → 0 < i →
      dep (nth l (hparent i)) ≤ dep (nth l k)) →
    IsHeapUpTo (siftDown fuel l i m) m := by
  induction fuel generalizing l i with
  | zero =>
    intro hfuel hm hA hB
    intro k hk hk0
    rcases eq_or_ne (hparent k) i with hpki | hpki
    · exfalso
      have := hparent_child hk0
      omega
    · exact hA k hk hk0 hpki
  | succ fuel ih =>
    intro hfuel hm hA hB
    rw [siftDown]
    split_ifs with h1 h2
    · -- a swap happens; recurse at the shallowest child
      have hci : i < minChild l i m := minChild_gt l i m
      have hcm : minChild l i m < m := minChild_lt_m (l := l) h1
      have hpc : hparent (minChild l i m) = i := minChild_parent l i m
      have hil : i < l.length := by omega
      have hcl : minChild l i m < l.length := by omega
      have nfst : nth (lswap l i (minChild l i m)) i =
          nth l (minChild l i m) := nth_lswap_fst l hil hcl
      have nsnd : nth (lswap l i (minChild l i m)) (minChild l i m) =
          nth l i := nth_lswap_snd l hcl
      apply ih _ _ (by omega) (by rw [length_lswap]; exact hm)
      · -- the heap relation holds away from the new position
        intro k hk hk0 hknc
        rcases eq_or_ne k i with hki | hki
        · rw [hki]
          have h0i : 0 < i := hki ▸ hk0
          have hpi : hparent i < i := hparent_lt h0i
          rw [nth_lswap_other l (by omega) (by omega), nfst]
          exact hB (minChild l i m) hcm hpc h0i
        · rcases eq_or_ne k (minChild l i m) with hkc | hkc
          · rw [hkc, hpc, nfst, nsnd]
            exact le_of_lt h2
          · rw [nth_lswap_other l hki hkc]
            rcases eq_or_ne (hparent k) i with hpki | hpki
            · rw [hpki, nfst]
              exact minChild_min l hk hpki hk0
            · rw [nth_lswap_other l hpki hknc]
              exact hA k hk hk0 hpki
      · -- the displaced entry dominates the new children
        intro k hk hpk hc0
        rw [hpc, nfst]
        have hk0 : 0 < k := by
          rcases Nat.eq_zero_or_pos k with hz | h
          · rw [hz, show hparent 0 = 0 from rfl] at hpk
            omega
          · exact h
        have hkgt : minChild l i m < k := by
          have h5 := hparent_lt hk0
          omega
        rw [nth_lswap_other l (by omega) (by omega)]
        have h6 := hA k hk hk0 (by rw [hpk]; exact Nat.ne_of_gt hci)
        rw [hpk] at h6
        exact h6
    · -- no swap: the current node already dominates its children
      intro k hk hk0
      rcases eq_or_ne (hparent k) i with hpki | hpki
      · rw [hpki]
        have h3 : dep (nth l i) ≤ dep (nth l (minChild l i m)) :=
          le_of_not_lt h2
        exact le_trans h3 (minChild_min l hk hpki hk0)
      · exact hA k hk hk0 hpki
    · -- no children in range
      intro k hk hk0
      rcases eq_or_ne (hparent k) i with hpki | hpki
      · exfalso
        have := hparent_child hk0
        omega
      · exact hA k hk hk0 hpki

theorem siftUp_length (fuel : Nat) (l : List KeyedTTEntry) (j : Nat) :
    (siftUp fuel l j).length = l.length := by
  induction fuel generalizing l j with
  | zero => rfl
  | succ fuel ih =>
    rw [siftUp]
    split_ifs with h0 hcond
    · rw [ih, length_lswap]
    · rfl
    · rfl

theorem siftUp_perm (fuel : Nat) (l : List KeyedTTEntry) (j : Nat) :
    j < l.length → List.Perm (siftUp fuel l j) l := by
  induction fuel generalizing l j with
  | zero => exact fun _ => List.Perm.refl _
  | succ fuel ih =>
    intro hj
    rw [siftUp]
    split_ifs with h0 hcond
    · have hpj : hparent j < j := hparent_lt h0
      have hperm := lswap_perm l (i := j) (j := hparent j) hj (by omega)
      exact List.Perm.trans (ih _ _ (by rw [length_lswap]; omega)) hperm
    · exact List.Perm.refl _
    · exact List.Perm.refl _

theorem siftUp_heap (fuel : Nat) (l : List KeyedTTEntry) (j : Nat) (m : Nat) :
    j ≤ fuel → m ≤ l.length → j < m →
    (∀ k, k < m → 0 < k → k ≠ j →
      dep (nth l (hparent k)) ≤ dep (nth l k)) →
    (∀ k, k < m → hparent k = j → 0 < j →
      dep (nth l (hparent j)) ≤ dep (nth l k)) →
    IsHeapUpTo (siftUp fuel l j) m := by
  induction fuel generalizing l j with
  | zero =>
    intro hfuel hm hj hA hB
    have hj0 : j = 0 := by omega
    intro k hk hk0
    rcases eq_or_ne k j with hkj | hkj
    · omega
    · exact hA k hk hk0 hkj
  | succ fuel ih =>
    intro hfuel hm hj hA hB
    rw [siftUp]
    split_ifs with h0 hcond
    · have hpj : hparent j < j := hparent_lt h0
      have hjl : j < l.length := by omega
      have hpl : hparent j < l.length := by omega
      have nfst : nth (lswap l j (hparent j)) j = nth l (hparent j) :=
        nth_lswap_fst l hjl hpl
      have nsnd : nth (lswap l j (hparent j)) (hparent j) = nth l j :=
        nth_lswap_snd l hpl
      apply ih _ _ (by omega) (by rw [length_lswap]; exact hm) (by omega)
      · intro k hk hk0 hkp
        rcases eq_or_ne k j with hkj | hkj
        · rw [hkj]
          have : hparent j = hparent j := rfl
          rw [nsnd, nfst]
          exact le_of_lt hcond
        · rcases eq_or_ne (hparent k) (hparent j) with hpkp | hpkp
          · -- k is the sibling of j under the same parent
            rw [hpkp, nsnd, nth_lswap_other l hkj hkp]
            have h4 := hA k hk hk0 hkj
            rw [hpkp] at h4
            exact le_trans (le_of_lt hcond) h4
          · rcases eq_or_ne (hparent k) j with hpkj | hpkj
            · -- k is a child of j
              have hkgt : j < k := by
                have h5 := hparent_lt hk0
                omega
              rw [hpkj, nfst, nth_lswap_other l hkj (by omega)]
              exact hB k hk hpkj h0
            · rw [nth_lswap_other l hpkj hpkp, nth_lswap_other l hkj hkp]
              exact hA k hk hk0 hkj
      · intro k hk hpk hp0
        have hppj : hparent (hparent j) ≠ j := by
          have h5 := hparent_lt hp0
          omega
        have hppp : hparent (hparent j) ≠ hparent j := by
          have h5 := hparent_lt hp0
          omega
        rw [nth_lswap_other l hppj hppp]
        rcases eq_or_ne k j with hkj | hkj
        · rw [hkj, nfst]
          exact hA (hparent j) (by omega) hp0 (by omega)
        · have hkgt : hparent j < k := by
            have h5 := hparent_lt (show 0 < k by
              rcases Nat.eq_zero_or_pos k with hz | h
              · rw [hz, show hparent 0 = 0 from rfl] at hpk
                omega
              · exact h)
            omega
          rw [nth_lswap_other l hkj (by omega)]
          have h6 := hA (hparent j) (by omega) hp0 (by omega)
          have h7 := hA k hk (by omega) hkj
          rw [hpk] at h7
          exact le_trans h6 h7
    · intro k hk hk0
      rcases eq_or_ne k j with hkj | hkj
      · rw [hkj]
        exact le_of_not_lt hcond
      · exact hA k hk hk0 hkj
    · intro k hk hk0
      exact hA k hk hk0 (by omega)

theorem heap_root_min (l : List KeyedTTEntry) (m : Nat)
    (hh : IsHeapUpTo l m) : ∀ i, i < m → dep (nth l 0) ≤ dep (nth l i) := by
  intro i
  induction i using Nat.strong_induction_on with
  | _ i ih =>
    intro him
    rcases Nat.eq_zero_or_pos i with hz | h0
    · rw [hz]
    · have h1 := hh i him h0
      have h2 := ih (hparent i) (hparent_lt h0)
        (lt_trans (hparent_lt h0) him)
      exact le_trans h2 h1

theorem cppPopHeap_spec (l : List KeyedTTEntry) (h2 : 2 ≤ l.length)
    (hh : IsMinHeap l) :
    (cppPopHeap l).length = l.length ∧
    IsHeapUpTo (cppPopHeap l) (l.length - 1) ∧
    nth (cppPopHeap l) (l.length - 1) = nth l 0 ∧
    List.Perm (cppPopHeap l) l := by
  have hnot : ¬ l.length ≤ 1 := by omega
  have hlen : (lswap l 0 (l.length - 1)).length = l.length := length_lswap ..
  have h0 : 0 < l.length := by omega
  have hlast : l.length - 1 < l.length := by omega
  rw [cppPopHeap, if_neg hnot]
  refine ⟨?_, ?_, ?_, ?_⟩
  · rw [siftDown_length, hlen]
  · apply siftDown_heap _ _ _ _ (by omega) (by omega)
    · intro k hk hk0 hkp
      have hpk0 : 0 < hparent k := Nat.pos_of_ne_zero hkp
      have hpkk : hparent k < k := hparent_lt hk0
      rw [nth_lswap_other l (by omega) (by omega),
        nth_lswap_other l (by omega) (by omega)]
      exact hh k (by omega) hk0
    · intro k hk hpk hfalse
      exact absurd hfalse (lt_irrefl 0)
  · rw [siftDown_frame _ _ _ _ _ (le_refl _), nth_lswap_snd l hlast]
  · exact List.Perm.trans (siftDown_perm _ _ _ _ (by omega))
      (lswap_perm l h0 hlast)

theorem replaceBuffer_spec (l : List KeyedTTEntry) (v : KeyedTTEntry)
    (h1 : 1 ≤ l.length) (hh : IsMinHeap l) :
    (replaceBuffer l v).length = l.length ∧
    IsMinHeap (replaceBuffer l v) ∧
    (↑(replaceBuffer l v) : Multiset KeyedTTEntry) + {nth l 0} =
      ↑l + {v} := by
  rcases eq_or_lt_of_le h1 with hone | h2
  · -- a single-cell buffer: pop is the identity, push is the identity
    have hle : l.length ≤ 1 := by omega
    have hpop : cppPopHeap l = l := by rw [cppPopHeap, if_pos hle]
    have hlen1 : l.length - 1 = 0 := by omega
    have hsetlen : (l.set 0 v).length = l.length := by simp
    have hred : replaceBuffer l v = l.set 0 v := by
      rw [replaceBuffer, cppPushHeap, hpop, hlen1, hsetlen, hlen1]
      rfl
    rw [hred]
    refine ⟨hsetlen, ?_, ?_⟩
    · intro k hk hk0
      rw [hsetlen, ← hone] at hk
      omega
    · have h00 : nth l 0 = nth l (l.length - 1) := by rw [hlen1]
      exact multiset_set_add l (by omega) v
  · -- buffers of length at least two
    obtain ⟨hdlen, hdheap, hdlast, hdperm⟩ := cppPopHeap_spec l h2 hh
    set d := cppPopHeap l with hd
    have hlast : l.length - 1 < d.length := by omega
    have hl2len : (d.set (l.length - 1) v).length = l.length := by
      simp [hdlen]
    have hl2heap : IsHeapUpTo (d.set (l.length - 1) v) (l.length - 1) := by
      intro k hk hk0
      have hpkk : hparent k < k := hparent_lt hk0
      rw [nth_set_other _ (by omega) _, nth_set_other _ (by omega) _]
      exact hdheap k hk hk0
    have hmul : (↑(d.set (l.length - 1) v) : Multiset KeyedTTEntry) +
        {nth l 0} = ↑d + {v} := by
      rw [← hdlast]
      exact multiset_set_add d hlast v
    have hdl : (replaceBuffer l v) =
        siftUp (l.length - 1) (d.set (l.length - 1) v) (l.length - 1) := by
      rw [replaceBuffer, cppPushHeap, ← hd, hdlen, hl2len]
    refine ⟨?_, ?_, ?_⟩
    · rw [hdl, siftUp_length, hl2len]
    · rw [IsMinHeap, hdl, siftUp_length, hl2len]
      apply siftUp_heap _ _ _ _ (by omega) (by omega) (by omega)
      · intro k hk hk0 hkj
        exact hl2heap k (by omega) hk0
      · intro k hk hpk hj0
        exfalso
        rcases Nat.eq_zero_or_pos k with hz | hk0
        · rw [hz, show hparent 0 = 0 from rfl] at hpk
          omega
        · have := hparent_child hk0
          omega
    · have hperm : List.Perm (replaceBuffer l v) (d.set (l.length - 1) v) := by
        rw [hdl]
        exact siftUp_perm _ _ _ (by omega)
      calc (↑(replaceBuffer l v) : Multiset KeyedTTEntry) + {nth l 0}
          = (↑(d.set (l.length - 1) v) : Multiset KeyedTTEntry) + {nth l 0} := by
            rw [Multiset.coe_eq_coe.mpr hperm]
        _ = ↑d + {v} := hmul
        _ = ↑l + {v} := by rw [Multiset.coe_eq_coe.mpr hdperm]

/-- Full characterisation of `ClusterCache::replace`, used by the claim
theorems: the attempt counter always advances by one, the admission test
is a strict depth comparison against the front entry, success removes the
front entry and inserts the offered one keeping the heap, failure leaves
the entries untouched, and the wire buffers are never touched. -/
theorem replace_spec (cc : ClusterCache) (e : KeyedTTEntry)
    (h1 : 1 ≤ cc.buffer.length) (hh : IsMinHeap cc.buffer) :
    (cc.replace e).2.TTCacheCounter = cc.TTCacheCounter + 1 ∧
    ((cc.replace e).1 = true ↔ dep (nth cc.buffer 0) < dep e) ∧
    ((cc.replace e).1 = true →
      (↑(cc.replace e).2.buffer : Multiset KeyedTTEntry) + {nth cc.buffer 0} =
        ↑cc.buffer + {e} ∧
      IsMinHeap (cc.replace e).2.buffer ∧
      (cc.replace e).2.buffer.length = cc.buffer.length) ∧
    ((cc.replace e).1 = false → (cc.replace e).2.buffer = cc.buffer) ∧
    (cc.replace e).2.buffs0 = cc.buffs0 ∧
    (cc.replace e).2.buffs1 = cc.buffs1 := by
  by_cases hc : dep (nth cc.buffer 0) < dep e
  · rw [ClusterCache.replace, if_pos hc]
    obtain ⟨hlen, hheap, hmul⟩ := replaceBuffer_spec cc.buffer e h1 hh
    exact ⟨rfl, by simp [hc], fun _ => ⟨hmul, hheap, hlen⟩, by simp, rfl, rfl⟩
  · rw [ClusterCache.replace, if_neg hc]
    exact ⟨rfl, by simp [hc], by simp, fun _ => rfl, rfl, rfl⟩

theorem front_min (l : List KeyedTTEntry) (hh : IsMinHeap l) :
    ∀ x ∈ l, dep (nth l 0) ≤ dep x := by
  intro x hx
  obtain ⟨i, hi, heq⟩ := List.getElem_of_mem hx
  rw [← heq, ← nth_eq_getElem l hi]
  exact heap_root_min l _ hh i hi

/-- C2: for every ThreadTTCache state (a well-formed heap) and every
offered entry `e`, `replace e` increments `TTCacheCounter` by exactly one
regardless of outcome; it returns `true` precisely when `e` is strictly
deeper than the front entry (which is the shallowest held entry); on
success the front entry is removed and `e` inserted with the heap property
restored; on failure the held entries are unchanged; and for a single-cell
buffer (`C = 1`) it succeeds precisely when `e` is deeper than the one
held entry. -/
theorem claim_C2 (cc : ClusterCache) (e : KeyedTTEntry)
    (hlen : 1 ≤ cc.buffer.length) (hheap : IsMinHeap cc.buffer) :
    (cc.replace e).2.TTCacheCounter = cc.TTCacheCounter + 1 ∧
    ((cc.replace e).1 = true ↔ dep (nth cc.buffer 0) < dep e) ∧
    (∀ x ∈ cc.buffer, dep (nth cc.buffer 0) ≤ dep x) ∧
    ((cc.replace e).1 = true →
      (↑(cc.replace e).2.buffer : Multiset KeyedTTEntry) +
          {nth cc.buffer 0} = ↑cc.buffer + {e} ∧
      IsMinHeap (cc.replace e).2.buffer) ∧
    ((cc.replace e).1 = false → (cc.replace e).2.buffer = cc.buffer) ∧
    (∀ cur, cc.buffer = [cur] →
      ((cc.replace e).1 = true ↔ dep cur < dep e)) := by
  obtain ⟨hcnt, hiff, hsucc, hfail, _, _⟩ := replace_spec cc e hlen hheap
  refine ⟨hcnt, hiff, front_min cc.buffer hheap,
    fun h => ⟨(hsucc h).1, (hsucc h).2.1⟩, hfail, ?_⟩
  intro cur hcur
  rw [hiff, hcur]
  simp [nth]

/-- Witness for C2: the concrete two-entry cache `wCC2` and offer `wE3`
satisfy the hypotheses of the theorem, which is then applied to them. -/
theorem claim_C2_witness :
    (1 ≤ wCC2.buffer.length ∧ IsMinHeap wCC2.buffer) ∧
    (wCC2.replace wE3).2.TTCacheCounter = wCC2.TTCacheCounter + 1 ∧
    ((wCC2.replace wE3).1 = true ↔ dep (nth wCC2.buffer 0) < dep wE3) ∧
    (∀ x ∈ wCC2.buffer, dep (nth wCC2.buffer 0) ≤ dep x) ∧
    ((wCC2.replace wE3).1 = true →
      (↑(wCC2.replace wE3).2.buffer : Multiset KeyedTTEntry) +
          {nth wCC2.buffer 0} = ↑wCC2.buffer + {wE3} ∧
      IsMinHeap (wCC2.replace wE3).2.buffer) ∧
    ((wCC2.replace wE3).1 = false →
      (wCC2.replace wE3).2.buffer = wCC2.buffer) ∧
    (∀ cur, wCC2.buffer = [cur] →
      ((wCC2.replace wE3).1 = true ↔ dep cur < dep wE3)) :=
  ⟨⟨by decide, by decide⟩, claim_C2 wCC2 wE3 (by decide) (by decide)⟩

theorem coe_cons_split (e : KeyedTTEntry) (es : List KeyedTTEntry) :
    (↑(e :: es) : Multiset KeyedTTEntry) = {e} + ↑es := by
  rw [← Multiset.cons_coe, ← Multiset.singleton_add]

theorem applyOffers_inv (C : Nat) (es : List KeyedTTEntry) :
    ∀ (cc : ClusterCache) (seen : Multiset KeyedTTEntry),
    1 ≤ C → cc.buffer.length = C → IsMinHeap cc.buffer →
    IsTopSelection C ↑cc.buffer seen →
    (applyOffers cc es).buffer.length = C ∧
    IsMinHeap (applyOffers cc es).buffer ∧
    IsTopSelection C ↑(applyOffers cc es).buffer (seen + ↑es) := by
  induction es with
  | nil =>
    intro cc seen hC h1 hh ht
    refine ⟨h1, hh, ?_⟩
    simpa [applyOffers] using ht
  | cons e es ih =>
    intro cc seen hC h1 hh ht
    obtain ⟨hcnt, hiff, hsucc, hfail, _, _⟩ := replace_spec cc e (by omega) hh
    have h0 : 0 < cc.buffer.length := by omega
    have hfmem : nth cc.buffer 0 ∈ cc.buffer := by
      rw [nth_eq_getElem cc.buffer h0]
      exact List.getElem_mem h0
    have hfmin := front_min cc.buffer hh
    obtain ⟨hle, hcard, hdom⟩ := ht
    have hseen : seen + ↑(e :: es) = (seen + {e}) + ↑es := by
      rw [coe_cons_split, ← add_assoc]
    rw [applyOffers, hseen]
    cases hb : (cc.replace e).1
    · -- the offer was rejected: the buffer is unchanged
      have hbuf := hfail hb
      apply ih _ _ hC (by rw [hbuf]; exact h1) (by rw [hbuf]; exact hh)
      rw [hbuf]
      refine ⟨le_trans hle le_self_add, hcard, ?_⟩
      intro h hmem s hs
      rw [← tsub_add_eq_add_tsub hle] at hs
      rcases Multiset.mem_add.mp hs with hs | hs
      · exact hdom h hmem s hs
      · have hse : s = e := by simpa using hs
        have hno : ¬ dep (nth cc.buffer 0) < dep e := by
          intro hcl
          rw [hiff.mpr hcl] at hb
          exact Bool.noConfusion hb
        rw [hse]
        exact le_trans (le_of_not_lt hno)
          (hfmin h (Multiset.mem_coe.mp hmem))
    · -- the offer was admitted: the front entry is replaced by `e`
      obtain ⟨hmul, hheap2, hlen2⟩ := hsucc hb
      have hfm : nth cc.buffer 0 ∈ (↑cc.buffer : Multiset KeyedTTEntry) :=
        Multiset.mem_coe.mpr hfmem
      have hrest : (↑cc.buffer : Multiset KeyedTTEntry).erase
          (nth cc.buffer 0) + {nth cc.buffer 0} = ↑cc.buffer := by
        rw [add_comm, Multiset.singleton_add, Multiset.cons_erase hfm]
      have hheld2 : (↑(cc.replace e).2.buffer : Multiset KeyedTTEntry) =
          (↑cc.buffer : Multiset KeyedTTEntry).erase (nth cc.buffer 0) +
            {e} := by
        apply add_right_cancel (b := ({nth cc.buffer 0} :
          Multiset KeyedTTEntry))
        rw [hmul, add_right_comm, hrest]
      apply ih _ _ hC (by rw [hlen2]; exact h1) hheap2
      refine ⟨?_, ?_, ?_⟩
      · rw [hheld2]
        exact add_le_add_right
          (le_trans (Multiset.erase_le _ _) hle) _
      · rw [hheld2]
        rw [Multiset.card_add, Multiset.card_erase_of_mem hfm,
          Multiset.card_singleton, hcard, Nat.pred_eq_sub_one]
        omega
      · intro h hmem s hs
        have hsub1 : (seen + {e}) - ((↑cc.buffer :
            Multiset KeyedTTEntry).erase (nth cc.buffer 0) + {e}) =
            seen - (↑cc.buffer : Multiset KeyedTTEntry).erase
              (nth cc.buffer 0) := by
          exact add_tsub_add_eq_tsub_right _ _ _
        have hsub2 : seen - (↑cc.buffer : Multiset KeyedTTEntry).erase
            (nth cc.buffer 0) = (seen - ↑cc.buffer) + {nth cc.buffer 0} := by
          rw [← Multiset.sub_singleton]
          exact tsub_tsub_assoc hle (Multiset.singleton_le.mpr hfm)
        rw [hheld2] at hs hmem
        rw [hsub1, hsub2] at hs
        rcases Multiset.mem_add.mp hs with hs | hs
        · rcases Multiset.mem_add.mp hmem with hm | hm
          · exact hdom h (Multiset.mem_of_mem_erase hm) s hs
          · have hhe : h = e := by simpa using hm
            rw [hhe]
            exact le_trans (hdom _ hfm s hs) (le_of_lt (hiff.mp hb))
        · have hsf : s = nth cc.buffer 0 := by simpa using hs
          rw [hsf]
          rcases Multiset.mem_add.mp hmem with hm | hm
          · exact hfmin h (Multiset.mem_coe.mp
              (Multiset.mem_of_mem_erase hm))
          · have hhe : h = e := by simpa using hm
            rw [hhe]
            exact le_of_lt (hiff.mp hb)

theorem nth_replicate (n i : Nat) :
    nth (List.replicate n (default : KeyedTTEntry)) i = default := by
  unfold nth
  rcases Nat.lt_or_ge i n with h | h
  · rw [List.getD_eq_getElem _ _ (by simpa using h)]
    simp
  · exact List.getD_eq_default _ _ (by simpa using h)

theorem initCC_heap (C size : Nat) : IsMinHeap (initCC C size).buffer := by
  have hbuf : (initCC C size).buffer =
      List.replicate C (default : KeyedTTEntry) := rfl
  rw [IsMinHeap, hbuf]
  intro k hk hk0
  rw [nth_replicate, nth_replicate]

theorem initCC_top (C size : Nat) :
    IsTopSelection C ↑(initCC C size).buffer ↑(initCC C size).buffer := by
  refine ⟨le_refl _, by simp [initCC], ?_⟩
  intro h hm s hs
  rw [tsub_self] at hs
  exact absurd hs (Multiset.not_mem_zero s)

theorem offers_all_true (C : Nat) (hC : 1 ≤ C) (es : List KeyedTTEntry) :
    ∀ (cc : ClusterCache),
    cc.buffer.length = C → IsMinHeap cc.buffer →
    es.length ≤
      (↑cc.buffer : Multiset KeyedTTEntry).count (default : KeyedTTEntry) →
    (∀ e ∈ es, dep (default : KeyedTTEntry) < dep e) →
    (∀ x ∈ cc.buffer, x = default ∨
      dep (default : KeyedTTEntry) < dep x) →
    offerResults cc es = List.replicate es.length true := by
  induction es with
  | nil =>
    intro cc _ _ _ _ _
    rfl
  | cons e es ih =>
    intro cc h1 hh hcnt hes hx
    simp only [List.length_cons] at hcnt
    have hdm : (default : KeyedTTEntry) ∈ cc.buffer := by
      have hpos : 0 < (↑cc.buffer : Multiset KeyedTTEntry).count
          (default : KeyedTTEntry) := by omega
      exact Multiset.mem_coe.mp (Multiset.count_pos.mp hpos)
    have h0 : 0 < cc.buffer.length := by omega
    have hfmem : nth cc.buffer 0 ∈ cc.buffer := by
      rw [nth_eq_getElem cc.buffer h0]
      exact List.getElem_mem h0
    have hfmin := front_min cc.buffer hh
    have hfd : nth cc.buffer 0 = default := by
      rcases hx _ hfmem with h | h
      · exact h
      · exfalso
        have h2 := hfmin default hdm
        omega
    obtain ⟨hcnt2, hiff, hsucc, hfail, _, _⟩ :=
      replace_spec cc e (by omega) hh
    have hb : (cc.replace e).1 = true :=
      hiff.mpr (by rw [hfd]; exact hes e (List.mem_cons_self e es))
    obtain ⟨hmul, hheap2, hlen2⟩ := hsucc hb
    rw [offerResults, hb, List.length_cons, List.replicate_succ]
    congr 1
    have hde : (default : KeyedTTEntry) ≠ e := by
      intro hq
      have := hes e (List.mem_cons_self e es)
      rw [← hq] at this
      omega
    apply ih _ (by rw [hlen2]; exact h1) hheap2
    · -- one sentinel is consumed by the admission
      have hcq := congrArg
        (Multiset.count (default : KeyedTTEntry)) hmul
      simp only [Multiset.count_add, Multiset.count_singleton, hfd] at hcq
      rw [if_true, if_neg hde] at hcq
      omega
    · exact fun e2 he2 => hes e2 (List.mem_cons_of_mem _ he2)
    · intro x hxm
      have hxc : x ∈ (↑(cc.replace e).2.buffer : Multiset KeyedTTEntry) :=
        Multiset.mem_coe.mpr hxm
      have hxin : x ∈ (↑cc.buffer : Multiset KeyedTTEntry) + {e} := by
        rw [← hmul]
        exact Multiset.mem_add.mpr (Or.inl hxc)
      rcases Multiset.mem_add.mp hxin with hxb | hxe
      · exact hx x (Multiset.mem_coe.mp hxb)
      · right
        rw [Multiset.mem_singleton.mp hxe]
        exact hes e (List.mem_cons_self e es)

/-- C3: after any finite sequence of `replace` calls since the last
flush, the cache holds exactly `C` entries, the min-heap-by-depth
property holds (the front entry is the shallowest held entry), and the
held entries are a selection of the `C` deepest entries seen since the
flush (the `C` pre-flush sentinel entries counting as seen); moreover if
at most `C` offers have been made, all of them strictly deeper than the
sentinel depth, then every one of those offers succeeded. -/
theorem claim_C3 (C size : Nat) (hC : 1 ≤ C) (es : List KeyedTTEntry) :
    (applyOffers (initCC C size) es).buffer.length = C ∧
    IsMinHeap (applyOffers (initCC C size) es).buffer ∧
    (∀ x ∈ (applyOffers (initCC C size) es).buffer,
      dep (nth (applyOffers (initCC C size) es).buffer 0) ≤ dep x) ∧
    IsTopSelection C ↑(applyOffers (initCC C size) es).buffer
      (↑(List.replicate C (default : KeyedTTEntry)) + ↑es) ∧
    (es.length ≤ C → (∀ e ∈ es, dep (default : KeyedTTEntry) < dep e) →
      offerResults (initCC C size) es = List.replicate es.length true) := by
  obtain ⟨hl, hhp, htop⟩ := applyOffers_inv C es (initCC C size)
    ↑(initCC C size).buffer hC (by simp [initCC]) (initCC_heap C size)
    (initCC_top C size)
  have hbuf : (initCC C size).buffer =
      List.replicate C (default : KeyedTTEntry) := rfl
  refine ⟨hl, hhp, front_min _ hhp, by rw [← hbuf]; exact htop, ?_⟩
  intro hlen hdeps
  apply offers_all_true C hC es _ (by simp [initCC])
    (initCC_heap C size) ?_ hdeps ?_
  · rw [hbuf, Multiset.coe_count, List.count_replicate_self]
    exact hlen
  · intro x hxm
    left
    exact List.eq_of_mem_replicate (hbuf ▸ hxm)

/-- Witness for C3: a concrete single-cell cache receiving two offers of
depths 3 and 1; the theorem is applied at `C = 1`, `size = 1`. -/
theorem claim_C3_witness :
    1 ≤ 1 ∧
    ((applyOffers (initCC 1 1) [wE3, wE1]).buffer.length = 1 ∧
    IsMinHeap (applyOffers (initCC 1 1) [wE3, wE1]).buffer ∧
    (∀ x ∈ (applyOffers (initCC 1 1) [wE3, wE1]).buffer,
      dep (nth (applyOffers (initCC 1 1) [wE3, wE1]).buffer 0) ≤ dep x) ∧
    IsTopSelection 1 ↑(applyOffers (initCC 1 1) [wE3, wE1]).buffer
      (↑(List.replicate 1 (default : KeyedTTEntry)) + ↑[wE3, wE1]) ∧
    ([wE3, wE1].length ≤ 1 →
      (∀ e ∈ [wE3, wE1], dep (default : KeyedTTEntry) < dep e) →
      offerResults (initCC 1 1) [wE3, wE1] =
        List.replicate [wE3, wE1].length true)) :=
  ⟨by decide, claim_C3 1 1 (by decide) [wE3, wE1]⟩

/-! ## Lemmas about the ring-exchange round -/

theorem writeFrom_length (xs : List KeyedTTEntry) :
    ∀ (wire : List KeyedTTEntry) (i : Nat),
    (writeFrom wire i xs).length = wire.length := by
  induction xs with
  | nil => intro wire i; rfl
  | cons e es ih =>
    intro wire i
    rw [writeFrom, ih]
    simp

theorem nth_writeFrom_out (xs : List KeyedTTEntry) :
    ∀ (wire : List KeyedTTEntry) (i k : Nat),
    (k < i ∨ i + xs.length ≤ k) →
    nth (writeFrom wire i xs) k = nth wire k := by
  induction xs with
  | nil => intro wire i k _; rfl
  | cons e es ih =>
    intro wire i k hk
    simp only [List.length_cons] at hk
    rw [writeFrom, ih _ _ _ (by omega), nth_set_other _ (by omega)]

theorem nth_writeFrom_in (xs : List KeyedTTEntry) :
    ∀ (wire : List KeyedTTEntry) (i j : Nat), j < xs.length →
    i + xs.length ≤ wire.length →
    nth (writeFrom wire i xs) (i + j) = nth xs j := by
  induction xs with
  | nil => intro wire i j hj _; exact absurd hj (by simp)
  | cons e es ih =>
    intro wire i j hj hlen
    simp only [List.length_cons] at hj hlen
    rw [writeFrom]
    rcases Nat.eq_zero_or_pos j with hz | hpos
    · subst hz
      rw [nth_writeFrom_out es _ _ _ (Or.inl (by omega))]
      have hset : nth (wire.set i e) (i + 0) = e := by
        rw [Nat.add_zero]
        exact nth_set_self wire (by omega) e
      rw [hset]
      rfl
    · obtain ⟨j2, rfl⟩ : ∃ j2, j = j2 + 1 := ⟨j - 1, by omega⟩
      have hadd : i + (j2 + 1) = (i + 1) + j2 := by omega
      rw [hadd, ih _ _ _ (by omega) (by rw [List.length_set]; omega)]
      rfl

theorem slotEvents_congr (w1 w2 : List KeyedTTEntry) (irank C : Nat)
    (h : ∀ j, j < C → nth w1 (irank * C + j) = nth w2 (irank * C + j)) :
    slotEvents w1 irank C = slotEvents w2 irank C := by
  unfold slotEvents
  apply List.map_congr_left
  intro j hj
  rw [h j (List.mem_range.mp hj)]

theorem hb_fold_no_rank (rank C p : Nat) (L : List Nat) :
    ∀ (cc : ClusterCache) (evs : List SaveEvent), (∀ x ∈ L, x ≠ rank) →
    (L.foldl (hbStep rank C p) (cc, evs)).1 = cc ∧
    (L.foldl (hbStep rank C p) (cc, evs)).2 =
      evs ++ L.flatMap (fun irank => slotEvents (activeBuff cc p) irank C) := by
  induction L with
  | nil => intro cc evs _; simp
  | cons x L ih =>
    intro cc evs h
    have hx : x ≠ rank := h x (List.mem_cons_self x L)
    rw [List.foldl_cons]
    have hstep : hbStep rank C p (cc, evs) x =
        (cc, evs ++ slotEvents (activeBuff cc p) x C) := by
      rw [hbStep, if_neg hx]
    rw [hstep]
    obtain ⟨h1, h2⟩ := ih cc (evs ++ slotEvents (activeBuff cc p) x C)
      (fun y hy => h y (List.mem_cons_of_mem _ hy))
    refine ⟨h1, ?_⟩
    rw [h2, List.flatMap_cons, List.append_assoc]

theorem activeBuff_set_self (cc : ClusterCache) (p : Nat)
    (w b : List KeyedTTEntry) (n : Nat) :
    activeBuff { setActive cc p w with buffer := b, TTCacheCounter := n }
      p = w := by
  unfold setActive activeBuff
  split <;> simp

theorem activeBuff_set_other (cc : ClusterCache) (p q : Nat)
    (hpq : (p = 0) ≠ (q = 0)) (w b : List KeyedTTEntry) (n : Nat) :
    activeBuff { setActive cc p w with buffer := b, TTCacheCounter := n }
      q = activeBuff cc q := by
  unfold setActive activeBuff
  by_cases hp : p = 0 <;> by_cases hq : q = 0 <;>
    simp [hp, hq] at hpq ⊢

theorem flatMap_congr_mem (L : List Nat) (f g : Nat → List SaveEvent)
    (h : ∀ x ∈ L, f x = g x) : L.flatMap f = L.flatMap g := by
  induction L with
  | nil => rfl
  | cons x L ih =>
    rw [List.flatMap_cons, List.flatMap_cons, h x (List.mem_cons_self x L),
      ih (fun y hy => h y (List.mem_cons_of_mem _ hy))]

/-- C1: one round of `ClusterCache::handle_buffer` (run when the
outstanding requests have completed) copies the thread's cache entries
into slots `[rank*C, (rank+1)*C)` of the active buffer
`B[sendRecvPosted % 2]` leaving the rest of that buffer and the whole
other buffer untouched, resets the cache to sentinel entries and zeroes
`TTCacheCounter`, probes-and-saves into the external TT exactly the
entries of every other rank's slot of the active buffer (never its own
slot), increments `sendRecvPosted`, and posts a non-blocking receive into
`B[sendRecvPosted % 2]` from rank `(rank+size-1) % size` and a
non-blocking send of the just-filled buffer `B[(sendRecvPosted+1) % 2]`
to rank `(rank+1) % size`, both with tag 42 on `TTComm`. -/
theorem claim_C1 (rank size C srp : Nat) (cc : ClusterCache)
    (hrs : rank < size)
    (hb0 : cc.buffs0.length = C * size)
    (hb1 : cc.buffs1.length = C * size)
    (hbf : cc.buffer.length = C) :
    (handle_buffer rank size C cc srp).1.2 = srp + 1 ∧
    (∀ j, j < C →
      nth (activeBuff (handle_buffer rank size C cc srp).1.1 (srp % 2))
        (rank * C + j) = nth cc.buffer j) ∧
    (∀ i, i < C * size → (i < rank * C ∨ rank * C + C ≤ i) →
      nth (activeBuff (handle_buffer rank size C cc srp).1.1 (srp % 2)) i =
        nth (activeBuff cc (srp % 2)) i) ∧
    activeBuff (handle_buffer rank size C cc srp).1.1 (1 - srp % 2) =
      activeBuff cc (1 - srp % 2) ∧
    (handle_buffer rank size C cc srp).1.1.buffer =
      List.replicate C default ∧
    (handle_buffer rank size C cc srp).1.1.TTCacheCounter = 0 ∧
    (handle_buffer rank size C cc srp).2.1 =
      ((List.range size).filter (fun i => i ≠ rank)).flatMap
        (fun irank => slotEvents (activeBuff cc (srp % 2)) irank C) ∧
    (handle_buffer rank size C cc srp).2.2 =
      { recvBuf := (srp + 1) % 2
        recvSrc := (rank + size - 1) % size
        sendBuf := srp % 2
        sendDst := (rank + 1) % size
        tag := 42
        comm := Comm.TTComm } := by
  have hp01 : srp % 2 = 0 ∨ srp % 2 = 1 := by omega
  have hwact : (activeBuff cc (srp % 2)).length = C * size := by
    unfold activeBuff
    rcases hp01 with h | h <;> simp [h, hb0, hb1]
  -- the state after the round
  have hdec : List.range size = (List.range rank ++ [rank]) ++
      (List.range (size - rank - 1)).map ((rank + 1) + ·) := by
    conv_lhs => rw [show size = (rank + 1) + (size - rank - 1) by omega]
    rw [List.range_add, List.range_succ]
  obtain ⟨hpre1, hpre2⟩ := hb_fold_no_rank rank C (srp % 2)
    (List.range rank) cc []
    (fun x hx => by have := List.mem_range.mp hx; omega)
  have hfold1 : (List.range rank).foldl (hbStep rank C (srp % 2))
      (cc, ([] : List SaveEvent)) =
      (cc, (List.range rank).flatMap
        (fun irank => slotEvents (activeBuff cc (srp % 2)) irank C)) := by
    refine Prod.ext hpre1 ?_
    rw [hpre2]
    simp
  have hmid : hbStep rank C (srp % 2)
      (cc, (List.range rank).flatMap
        (fun irank => slotEvents (activeBuff cc (srp % 2)) irank C)) rank =
      ({ setActive cc (srp % 2)
          (writeFrom (activeBuff cc (srp % 2)) (rank * C) cc.buffer) with
          buffer := List.replicate C default
          TTCacheCounter := 0 },
       (List.range rank).flatMap
        (fun irank => slotEvents (activeBuff cc (srp % 2)) irank C)) := by
    rw [hbStep, if_pos rfl]
  obtain ⟨hsuf1, hsuf2⟩ := hb_fold_no_rank rank C (srp % 2)
    ((List.range (size - rank - 1)).map ((rank + 1) + ·))
    { setActive cc (srp % 2)
        (writeFrom (activeBuff cc (srp % 2)) (rank * C) cc.buffer) with
        buffer := List.replicate C default
        TTCacheCounter := 0 }
    ((List.range rank).flatMap
      (fun irank => slotEvents (activeBuff cc (srp % 2)) irank C))
    (fun x hx => by
      obtain ⟨y, _, rfl⟩ := List.mem_map.mp hx
      omega)
  have hacc2 : activeBuff
      { setActive cc (srp % 2)
          (writeFrom (activeBuff cc (srp % 2)) (rank * C) cc.buffer) with
          buffer := List.replicate C default
          TTCacheCounter := 0 } (srp % 2) =
      writeFrom (activeBuff cc (srp % 2)) (rank * C) cc.buffer :=
    activeBuff_set_self ..
  have hslot : ∀ irank, irank ≠ rank →
      slotEvents (writeFrom (activeBuff cc (srp % 2)) (rank * C) cc.buffer)
        irank C = slotEvents (activeBuff cc (srp % 2)) irank C := by
    intro irank hne
    apply slotEvents_congr
    intro j hj
    apply nth_writeFrom_out
    rcases Nat.lt_or_ge irank rank with hlt | hge
    · left
      calc irank * C + j < irank * C + C := by omega
        _ = (irank + 1) * C := (Nat.succ_mul irank C).symm
        _ ≤ rank * C := Nat.mul_le_mul_right C (by omega)
    · right
      rw [hbf]
      have h1 : rank * C + C = (rank + 1) * C := (Nat.succ_mul rank C).symm
      have h2 : (rank + 1) * C ≤ irank * C :=
        Nat.mul_le_mul_right C (by omega)
      omega
  have hfold2 : List.foldl (hbStep rank C (srp % 2))
      (cc, ([] : List SaveEvent)) (List.range size) =
      ({ setActive cc (srp % 2)
          (writeFrom (activeBuff cc (srp % 2)) (rank * C) cc.buffer) with
          buffer := List.replicate C default
          TTCacheCounter := 0 },
       ((List.range rank).flatMap
          (fun irank => slotEvents (activeBuff cc (srp % 2)) irank C)) ++
        (((List.range (size - rank - 1)).map ((rank + 1) + ·)).flatMap
          (fun irank => slotEvents (activeBuff cc (srp % 2)) irank C))) := by
    rw [hdec, List.foldl_append, List.foldl_append, hfold1,
      show ∀ a, List.foldl (hbStep rank C (srp % 2)) a [rank] =
        hbStep rank C (srp % 2) a rank from fun a => rfl, hmid]
    refine Prod.ext hsuf1 ?_
    rw [hsuf2, hacc2]
    congr 1
    apply flatMap_congr_mem
    intro x hx
    obtain ⟨y, _, rfl⟩ := List.mem_map.mp hx
    exact hslot _ (by omega)
  have hfil : (List.range size).filter (fun i => i ≠ rank) =
      List.range rank ++
        (List.range (size - rank - 1)).map ((rank + 1) + ·) := by
    rw [hdec, List.filter_append, List.filter_append]
    have hf1 : (List.range rank).filter (fun i => decide (i ≠ rank)) =
        List.range rank :=
      List.filter_eq_self.mpr (fun a ha => by
        have := List.mem_range.mp ha
        simp
        omega)
    have hf2 : ([rank] : List Nat).filter (fun i => decide (i ≠ rank)) =
        [] := by simp
    have hf3 : ((List.range (size - rank - 1)).map ((rank + 1) + ·)).filter
        (fun i => decide (i ≠ rank)) =
        (List.range (size - rank - 1)).map ((rank + 1) + ·) :=
      List.filter_eq_self.mpr (fun a ha => by
        obtain ⟨y, _, rfl⟩ := List.mem_map.mp ha
        simp
        omega)
    rw [hf1, hf2, hf3, List.append_nil]
  have hHB : handle_buffer rank size C cc srp =
      (({ setActive cc (srp % 2)
            (writeFrom (activeBuff cc (srp % 2)) (rank * C) cc.buffer) with
            buffer := List.replicate C default
            TTCacheCounter := 0 }, srp + 1),
       ((List.range rank).flatMap
          (fun irank => slotEvents (activeBuff cc (srp % 2)) irank C)) ++
        (((List.range (size - rank - 1)).map ((rank + 1) + ·)).flatMap
          (fun irank => slotEvents (activeBuff cc (srp % 2)) irank C)),
       { recvBuf := (srp + 1) % 2
         recvSrc := (rank + size - 1) % size
         sendBuf := (srp + 1 + 1) % 2
         sendDst := (rank + 1) % size
         tag := 42
         comm := Comm.TTComm }) := by
    rw [handle_buffer, hfold2]
  rw [hHB]
  refine ⟨rfl, ?_, ?_, ?_, rfl, rfl, ?_, ?_⟩
  · intro j hj
    rw [hacc2]
    have := nth_writeFrom_in cc.buffer (activeBuff cc (srp % 2))
      (rank * C) j (by omega) ?_
    · exact this
    · rw [hwact, hbf]
      have h1 : rank * C + C = (rank + 1) * C := (Nat.succ_mul rank C).symm
      have h2 : (rank + 1) * C ≤ size * C := Nat.mul_le_mul_right C (by omega)
      have h3 : size * C = C * size := Nat.mul_comm size C
      omega
  · intro i hi hside
    rw [hacc2]
    apply nth_writeFrom_out
    rw [hbf]
    omega
  · apply activeBuff_set_other
    rcases hp01 with h | h <;> rw [h] <;> simp
  · rw [hfil, List.flatMap_append]
  · have : (srp + 1 + 1) % 2 = srp % 2 := by omega
    rw [this]

/-- Witness for C1: a two-rank ring with `C = 1`, rank 0, at
`sendRecvPosted = 0`; the hypotheses hold by computation and the theorem
is applied there. -/
theorem claim_C1_witness :
    ((0 : Nat) < 2 ∧ wHB.buffs0.length = 1 * 2 ∧
      wHB.buffs1.length = 1 * 2 ∧ wHB.buffer.length = 1) ∧
    (handle_buffer 0 2 1 wHB 0).1.2 = 0 + 1 ∧
    (∀ j, j < 1 →
      nth (activeBuff (handle_buffer 0 2 1 wHB 0).1.1 (0 % 2))
        (0 * 1 + j) = nth wHB.buffer j) ∧
    (handle_buffer 0 2 1 wHB 0).2.1 =
      ((List.range 2).filter (fun i => i ≠ 0)).flatMap
        (fun irank => slotEvents (activeBuff wHB (0 % 2)) irank 1) := by
  refine ⟨⟨by decide, by decide, by decide, by decide⟩, ?_, ?_, ?_⟩
  · exact (claim_C1 0 2 1 0 wHB (by decide) (by decide) (by decide)
      (by decide)).1
  · exact (claim_C1 0 2 1 0 wHB (by decide) (by decide) (by decide)
      (by decide)).2.1
  · exact (claim_C1 0 2 1 0 wHB (by decide) (by decide) (by decide)
      (by decide)).2.2.2.2.2.2.1

/-- C4: for every call, the plain TT save is performed unconditionally
with exactly the given arguments; only when `d > 3` plies is the entry
offered to the ThreadTTCache and the TTsaves counter incremented; a
communication round is performed iff the cache counter (after the offer)
has reached `TTCacheSize` and the non-blocking test reported both
requests complete; otherwise `save` returns without posting, performing
or waiting for any communication. -/
theorem claim_C4 (rank size C : Nat) (isMain flag : Bool)
    (ts : ThreadState) (srp callsCnt : Nat) (k : Nat) (v : Int)
    (PvHit : Bool) (b : Nat) (d : Int) (m : Nat) (ev : Int) :
    (save rank size C isMain flag ts srp callsCnt k v PvHit b d m
      ev).tteSave = ⟨k, v, PvHit, b, d, m, ev⟩ ∧
    (¬ 3 * ONE_PLY < d →
      (save rank size C isMain flag ts srp callsCnt k v PvHit b d m
        ev).thread = ts ∧
      (save rank size C isMain flag ts srp callsCnt k v PvHit b d m
        ev).sendRecvPosted = srp ∧
      (save rank size C isMain flag ts srp callsCnt k v PvHit b d m
        ev).roundPerformed = false) ∧
    (3 * ONE_PLY < d →
      (save rank size C isMain flag ts srp callsCnt k v PvHit b d m
        ev).thread.TTsaves = ts.TTsaves + 1 ∧
      ((save rank size C isMain flag ts srp callsCnt k v PvHit b d m
          ev).roundPerformed = false →
        (save rank size C isMain flag ts srp callsCnt k v PvHit b d m
          ev).thread.ttCache =
          (ts.ttCache.replace ⟨k, ⟨d, v, ev, m, b, PvHit⟩⟩).2)) ∧
    ((save rank size C isMain flag ts srp callsCnt k v PvHit b d m
        ev).roundPerformed = true ↔
      (3 * ONE_PLY < d ∧
        C ≤ (ts.ttCache.replace
          ⟨k, ⟨d, v, ev, m, b, PvHit⟩⟩).2.TTCacheCounter ∧
        flag = true)) ∧
    ((save rank size C isMain flag ts srp callsCnt k v PvHit b d m
        ev).roundPerformed = false →
      (save rank size C isMain flag ts srp callsCnt k v PvHit b d m
        ev).post = none ∧
      (save rank size C isMain flag ts srp callsCnt k v PvHit b d m
        ev).ttEvents = [] ∧
      (save rank size C isMain flag ts srp callsCnt k v PvHit b d m
        ev).sendRecvPosted = srp) ∧
    ((save rank size C isMain flag ts srp callsCnt k v PvHit b d m
        ev).roundPerformed = true →
      (save rank size C isMain flag ts srp callsCnt k v PvHit b d m
        ev).thread.ttCache = (handle_buffer rank size C
          (ts.ttCache.replace ⟨k, ⟨d, v, ev, m, b, PvHit⟩⟩).2 srp).1.1 ∧
      (save rank size C isMain flag ts srp callsCnt k v PvHit b d m
        ev).post = some (handle_buffer rank size C
          (ts.ttCache.replace ⟨k, ⟨d, v, ev, m, b, PvHit⟩⟩).2 srp).2.2 ∧
      (save rank size C isMain flag ts srp callsCnt k v PvHit b d m
        ev).ttEvents = (handle_buffer rank size C
          (ts.ttCache.replace ⟨k, ⟨d, v, ev, m, b, PvHit⟩⟩).2 srp).2.1) := by
  by_cases h1 : 3 * ONE_PLY < d
  · by_cases h2 : C ≤ (ts.ttCache.replace
        ⟨k, ⟨d, v, ev, m, b, PvHit⟩⟩).2.TTCacheCounter
    · by_cases h3 : flag = true
      · rw [save, if_pos h1, if_pos h2, if_pos h3]
        refine ⟨rfl, fun h => absurd h1 h,
          fun _ => ⟨rfl, fun hco => by simp at hco⟩, ?_,
          fun hco => by simp at hco, fun _ => ⟨rfl, rfl, rfl⟩⟩
        simp [h1, h2, h3]
      · rw [save, if_pos h1, if_pos h2, if_neg h3]
        refine ⟨rfl, fun h => absurd h1 h, fun _ => ⟨rfl, fun _ => rfl⟩,
          ?_, fun _ => ⟨rfl, rfl, rfl⟩, fun hco => by simp at hco⟩
        simp [h1, h2, h3]
    · rw [save, if_pos h1, if_neg h2]
      refine ⟨rfl, fun h => absurd h1 h, fun _ => ⟨rfl, fun _ => rfl⟩,
        ?_, fun _ => ⟨rfl, rfl, rfl⟩, fun hco => by simp at hco⟩
      simp [h1, h2]
  · rw [save, if_neg h1]
    refine ⟨rfl, fun _ => ⟨rfl, rfl, rfl⟩, fun h => absurd h h1, ?_,
      fun _ => ⟨rfl, rfl, rfl⟩, fun hco => by simp at hco⟩
    simp [h1]

/-! ## Lemmas about the vote computation -/

theorem foldl_min_le_init (l : List MoveInfo) :
    ∀ a : Int, l.foldl (fun acc mi => min acc mi.score) a ≤ a := by
  induction l with
  | nil => intro a; exact le_refl a
  | cons m0 l ih =>
    intro a
    rw [List.foldl_cons]
    exact le_trans (ih _) (min_le_left _ _)

theorem foldl_min_le_mem (l : List MoveInfo) :
    ∀ (a : Int), ∀ mi ∈ l,
    l.foldl (fun acc mi2 => min acc mi2.score) a ≤ mi.score := by
  induction l with
  | nil => intro a mi h; exact absurd h (List.not_mem_nil mi)
  | cons m0 l ih =>
    intro a mi hmi
    rw [List.foldl_cons]
    rcases List.mem_cons.mp hmi with h | h
    · rw [h]
      exact le_trans (foldl_min_le_init l _) (min_le_right a m0.score)
    · exact ih _ mi h

theorem foldl_min_attained (l : List MoveInfo) :
    ∀ a : Int, l.foldl (fun acc mi => min acc mi.score) a = a ∨
      ∃ mi ∈ l, l.foldl (fun acc mi2 => min acc mi2.score) a = mi.score := by
  induction l with
  | nil => intro a; exact Or.inl rfl
  | cons m0 l ih =>
    intro a
    rw [List.foldl_cons]
    rcases ih (min a m0.score) with h | ⟨mi, hmi, he⟩
    · rcases min_choice a m0.score with hm | hm
      · left; rw [h, hm]
      · right
        exact ⟨m0, List.mem_cons_self m0 l, by rw [h, hm]⟩
    · right
      exact ⟨mi, List.mem_cons_of_mem _ hmi, he⟩

theorem foldl_votes (w : MoveInfo → Int) (l : List MoveInfo) :
    ∀ (g : Int → Int) (mv : Int),
    (l.foldl (fun g2 mi => fun x =>
        if x = mi.move then g2 x + w mi else g2 x) g) mv =
      g mv + ((l.filter (fun mi => mi.move = mv)).map w).sum := by
  induction l with
  | nil => intro g mv; simp
  | cons m0 l ih =>
    intro g mv
    rw [List.foldl_cons, ih]
    by_cases h : mv = m0.move
    · rw [List.filter_cons_of_pos (by simp [h]), List.map_cons,
        List.sum_cons]
      simp only [if_pos h]
      omega
    · rw [List.filter_cons_of_neg (by simp; exact fun hq => h hq.symm)]
      simp only [if_neg h]

theorem argFold_cons (v : MoveInfo → Int) (m0 : MoveInfo)
    (l : List MoveInfo) (b : MoveInfo) :
    argFold v (m0 :: l) b =
      if v m0 > v b then argFold v l m0 else argFold v l b := by
  by_cases h : v m0 > v b
  · rw [argFold, List.foldl_cons, if_pos h, if_pos h]
    rfl
  · rw [argFold, List.foldl_cons, if_neg h, if_neg h]
    rfl

theorem argFold_spec (v : MoveInfo → Int) (l : List MoveInfo) :
    ∀ b : MoveInfo,
    ((argFold v l b).1 = b ∧
      (∀ i, ∀ hi : i < l.length, v (l.get ⟨i, hi⟩) ≤ v b)) ∨
    (∃ j, ∃ hj : j < l.length,
      (argFold v l b).1 = l.get ⟨j, hj⟩ ∧
      v b < v (argFold v l b).1 ∧
      (∀ i, ∀ hi : i < l.length, v (l.get ⟨i, hi⟩) ≤ v (argFold v l b).1) ∧
      (∀ i, ∀ hi : i < j, v (l.get ⟨i, Nat.lt_trans hi hj⟩) <
        v (argFold v l b).1)) := by
  induction l with
  | nil =>
    intro b
    left
    exact ⟨rfl, fun i hi => absurd hi (by simp)⟩
  | cons m0 l ih =>
    intro b
    rw [argFold_cons]
    by_cases h : v m0 > v b
    · rw [if_pos h]
      rcases ih m0 with ⟨he, hall⟩ | ⟨j, hj, he, hlt, hall, hpre⟩
      · right
        refine ⟨0, by simp, by rw [he]; rfl, by rw [he]; exact h, ?_, ?_⟩
        · intro i hi
          rw [he]
          match i, hi with
          | 0, _ => exact le_refl _
          | i + 1, hi => exact hall i (Nat.lt_of_succ_lt_succ hi)
        · intro i hi
          exact absurd hi (Nat.not_lt_zero i)
      · right
        refine ⟨j + 1, by simpa using hj, he, lt_trans h hlt, ?_, ?_⟩
        · intro i hi
          match i, hi with
          | 0, _ => exact le_of_lt hlt
          | i + 1, hi => exact hall i (Nat.lt_of_succ_lt_succ hi)
        · intro i hi
          match i, hi with
          | 0, _ => exact hlt
          | i + 1, hi => exact hpre i (Nat.lt_of_succ_lt_succ hi)
    · rw [if_neg h]
      rcases ih b with ⟨he, hall⟩ | ⟨j, hj, he, hlt, hall, hpre⟩
      · left
        refine ⟨he, ?_⟩
        intro i hi
        match i, hi with
        | 0, _ => exact le_of_not_lt h
        | i + 1, hi => exact hall i (Nat.lt_of_succ_lt_succ hi)
      · right
        refine ⟨j + 1, by simpa using hj, he, hlt, ?_, ?_⟩
        · intro i hi
          match i, hi with
          | 0, _ => exact le_trans (le_of_not_lt h) (le_of_lt hlt)
          | i + 1, hi => exact hall i (Nat.lt_of_succ_lt_succ hi)
        · intro i hi
          match i, hi with
          | 0, _ => exact lt_of_le_of_lt (le_of_not_lt h) hlt
          | i + 1, hi => exact hpre i (Nat.lt_of_succ_lt_succ hi)

/-- C5: on the root, `minScore` is the minimum of the gathered scores;
each record adds `(score - minScore) + depth` to its move's vote total;
the selected record (then broadcast to every rank) is the record of the
first-encountered rank whose move attains the maximum vote total; and a
PV transfer occurs precisely when the winning rank is not the root.  On
the concrete scenario (A,100,20), (A,100,20), (B,100,21), (B,95,22) the
minimum is 95, the totals are A = 50 and B = 48, move A from rank 0 wins
and no PV transfer occurs. -/
theorem claim_C5 (mis : List MoveInfo) (hne : mis ≠ []) :
    (∀ mi ∈ mis, minScoreOf mis ≤ mi.score) ∧
    (∃ mi ∈ mis, minScoreOf mis = mi.score) ∧
    (∀ mv, votesOf mis mv =
      ((mis.filter (fun mi => mi.move = mv)).map
        (fun mi => mi.score - minScoreOf mis + mi.depth)).sum) ∧
    (∃ j, ∃ hj : j < mis.length,
      (pick_moves mis).1 = mis.get ⟨j, hj⟩ ∧
      (∀ i, ∀ hi : i < mis.length,
        votesOf mis (mis.get ⟨i, hi⟩).move ≤
          votesOf mis (pick_moves mis).1.move) ∧
      (∀ i, ∀ hi : i < j,
        votesOf mis (mis.get ⟨i, Nat.lt_trans hi hj⟩).move <
          votesOf mis (pick_moves mis).1.move)) ∧
    ((pick_moves mis).2 = true ↔ (pick_moves mis).1.rank ≠ 0) ∧
    (minScoreOf wMIs = 95 ∧ votesOf wMIs 1 = 50 ∧ votesOf wMIs 2 = 48 ∧
      (pick_moves wMIs).1 = ⟨1, 0, 20, 100, 0⟩ ∧
      (pick_moves wMIs).2 = false) := by
  obtain ⟨m0, rest, rfl⟩ := List.exists_cons_of_ne_nil hne
  refine ⟨?_, ?_, ?_, ?_, ?_, by decide, by decide, by decide, by decide,
    by decide⟩
  · intro mi hmi
    exact foldl_min_le_mem _ _ mi hmi
  · rcases foldl_min_attained (m0 :: rest) m0.score with h | ⟨mi, hmi, he⟩
    · exact ⟨m0, List.mem_cons_self m0 rest, h⟩
    · exact ⟨mi, hmi, he⟩
  · intro mv
    have h := foldl_votes
      (fun mi => mi.score - minScoreOf (m0 :: rest) + mi.depth)
      (m0 :: rest) (fun _ => 0) mv
    rw [votesOf, h]
    simp
  · have hsel : (pick_moves (m0 :: rest)).1 =
        (argFold (fun mi => votesOf (m0 :: rest) mi.move) (m0 :: rest)
          m0).1 := rfl
    rcases argFold_spec (fun mi => votesOf (m0 :: rest) mi.move)
        (m0 :: rest) m0 with ⟨he, hall⟩ | ⟨j, hj, he, _, hall, hpre⟩
    · refine ⟨0, by simp, ?_, ?_, ?_⟩
      · rw [hsel, he]
        rfl
      · intro i hi
        rw [hsel, he]
        exact hall i hi
      · intro i hi
        exact absurd hi (Nat.not_lt_zero i)
    · refine ⟨j, hj, by rw [hsel, he], ?_, ?_⟩
      · intro i hi
        rw [hsel]
        exact hall i hi
      · intro i hi
        rw [hsel]
        exact hpre i hi
  · rw [pick_moves]
    simp

/-- Witness for C5: the theorem applied to the concrete four-record
scenario. -/
theorem claim_C5_witness :
    wMIs ≠ [] ∧
    (∀ mi ∈ wMIs, minScoreOf wMIs ≤ mi.score) ∧
    (minScoreOf wMIs = 95 ∧ votesOf wMIs 1 = 50 ∧ votesOf wMIs 2 = 48 ∧
      (pick_moves wMIs).1 = ⟨1, 0, 20, 100, 0⟩ ∧
      (pick_moves wMIs).2 = false) := by
  refine ⟨by decide, ?_, ?_⟩
  · exact (claim_C5 wMIs (by decide)).1
  · exact (claim_C5 wMIs (by decide)).2.2.2.2.2

/-- C6: every rank returns the same boolean, equal to the success of the
root's local line read; on EOF at the root every rank returns `false` in
the same call; on an empty input line every rank returns `true` with an
empty string; and in general every rank's output string equals the
root's line. -/
theorem claim_C6 (n : Nat) (lineRead : Option String) :
    (∀ r, (getline_rank r lineRead).1 = lineRead.isSome) ∧
    (getline_all n lineRead =
      List.replicate n (lineRead.isSome, (getline_root lineRead).2.1)) ∧
    (∀ s, lineRead = some s → ∀ r, getline_rank r lineRead = (true, s)) ∧
    (lineRead = some "" → ∀ r, getline_rank r lineRead = (true, "")) ∧
    (lineRead = none → ∀ r, (getline_rank r lineRead).1 = false) := by
  have hrk : ∀ r, getline_rank r lineRead =
      (lineRead.isSome, (getline_root lineRead).2.1) := by
    intro r
    cases lineRead with
    | none =>
      by_cases h : r = 0 <;>
        simp [getline_rank, getline_root, getline_nonroot, h]
    | some s =>
      have htake : List.take s.length s.data = s.data := by
        rw [show s.length = s.data.length from rfl]
        exact List.take_length s.data
      by_cases h : r = 0 <;>
        simp [getline_rank, getline_root, getline_nonroot, h, htake]
  refine ⟨fun r => by rw [hrk r], ?_, ?_, ?_, ?_⟩
  · unfold getline_all
    rw [List.map_congr_left (fun r _ => hrk r), List.map_const',
      List.length_range]
  · intro s hs r
    rw [hrk r, hs]
    simp [getline_root]
  · intro h r
    rw [hrk r, h]
    simp [getline_root]
  · intro h r
    rw [hrk r, h]
    simp

/-- Witness for C4: the theorem applied at a concrete call (deep entry,
single-cell cache, test succeeded). -/
theorem claim_C4_witness :
    (save 0 1 1 true true ⟨0, initCC 1 1⟩ 0 7 5 3 true 1 9 2 4).tteSave =
      ⟨5, 3, true, 1, 9, 2, 4⟩ ∧
    ((save 0 1 1 true true ⟨0, initCC 1 1⟩ 0 7 5 3 true 1 9 2
        4).roundPerformed = true ↔
      (3 * ONE_PLY < 9 ∧
        1 ≤ ((initCC 1 1).replace
          ⟨5, ⟨9, 3, 4, 2, 1, true⟩⟩).2.TTCacheCounter ∧
        true = true)) :=
  ⟨(claim_C4 0 1 1 true true ⟨0, initCC 1 1⟩ 0 7 5 3 true 1 9 2 4).1,
   (claim_C4 0 1 1 true true ⟨0, initCC 1 1⟩ 0 7 5 3 true 1 9 2
     4).2.2.2.1⟩

/-- Witness for C6: the theorem applied at eight ranks with the concrete
line "position startpos"; rank 3 reconstructs the root's line. -/
theorem claim_C6_witness :
    getline_rank 3 (some "position startpos") =
      (true, "position startpos") :=
  (claim_C6 8 (some "position startpos")).2.2.1 "position startpos" rfl 3

/-! ## Lemmas about the signal synchronisation -/

theorem foldl_max_init (l : List Nat) : ∀ a : Nat, a ≤ l.foldl Nat.max a := by
  induction l with
  | nil => intro a; exact le_refl a
  | cons y l ih =>
    intro a
    rw [List.foldl_cons]
    exact le_trans (Nat.le_max_left a y) (ih _)

theorem foldl_max_le_mem (l : List Nat) :
    ∀ (a : Nat), ∀ x ∈ l, x ≤ l.foldl Nat.max a := by
  induction l with
  | nil => intro a x h; exact absurd h (List.not_mem_nil x)
  | cons y l ih =>
    intro a x hx
    rw [List.foldl_cons]
    rcases List.mem_cons.mp hx with h | h
    · rw [h]
      exact le_trans (Nat.le_max_right a y) (foldl_max_init l _)
    · exact ih _ x h

theorem le_maxCounter (ss : List SignalsState) :
    ∀ s ∈ ss, s.signalsCallCounter ≤ maxCounter ss := by
  intro s hs
  exact foldl_max_le_mem _ 0 _ (List.mem_map_of_mem _ hs)

/-- C7: the spin loop of `signals_sync` returns only once
`stopSignalsPosted ≥ size`; afterwards, with `globalMax` the blocking
max-all-reduce of the per-rank call counters, a rank strictly below the
maximum issues exactly one additional `signals_send` before the final
wait-and-process (no other rank issues any); and on exit every rank's
`signalsCallCounter` equals `globalMax` — so all ranks agree — and no
signal request is outstanding. -/
theorem claim_C7 :
    (∀ (size : Nat) (ins : List PollInput) (s s2 : SignalsState),
      sync_spin size ins s = some s2 → size ≤ s2.stopSignalsPosted) ∧
    (∀ ss : List SignalsState,
      (∀ s ∈ ss, maxCounter ss ≤ s.signalsCallCounter + 1) →
      ∀ s ∈ ss, ∀ (localNodes localTb localTts : Nat) (recv : SigVec),
        (signals_sync_tail (maxCounter ss) localNodes localTb localTts
          recv s).signalsCallCounter = maxCounter ss ∧
        (signals_sync_tail (maxCounter ss) localNodes localTb localTts
          recv s).reqOutstanding = false ∧
        syncSendsIssued (maxCounter ss) s ≤ 1 ∧
        (syncSendsIssued (maxCounter ss) s = 1 ↔
          s.signalsCallCounter < maxCounter ss) ∧
        (signals_sync_tail (maxCounter ss) localNodes localTb localTts
            recv s).signalsCallCounter =
          s.signalsCallCounter + syncSendsIssued (maxCounter ss) s) ∧
    (∀ ss : List SignalsState,
      (∀ s ∈ ss, maxCounter ss ≤ s.signalsCallCounter + 1) →
      ∀ s1 ∈ ss, ∀ s2 ∈ ss,
      ∀ (a1 a2 a3 : Nat) (r1 : SigVec) (b1 b2 b3 : Nat) (r2 : SigVec),
        (signals_sync_tail (maxCounter ss) a1 a2 a3 r1
            s1).signalsCallCounter =
          (signals_sync_tail (maxCounter ss) b1 b2 b3 r2
            s2).signalsCallCounter) := by
  have hspin : ∀ (size : Nat) (ins : List PollInput)
      (s s2 : SignalsState),
      sync_spin size ins s = some s2 → size ≤ s2.stopSignalsPosted := by
    intro size ins
    induction ins with
    | nil =>
      intro s s2 h
      rw [sync_spin] at h
      by_cases hc : size ≤ s.stopSignalsPosted
      · rw [if_pos hc] at h
        injection h with h2
        rw [← h2]
        exact hc
      · rw [if_neg hc] at h
        exact absurd h (by simp)
    | cons i rest ih =>
      intro s s2 h
      rw [sync_spin] at h
      by_cases hc : size ≤ s.stopSignalsPosted
      · rw [if_pos hc] at h
        injection h with h2
        rw [← h2]
        exact hc
      · rw [if_neg hc] at h
        exact ih _ _ h
  have hkey : ∀ ss : List SignalsState,
      (∀ s ∈ ss, maxCounter ss ≤ s.signalsCallCounter + 1) →
      ∀ s ∈ ss, ∀ (localNodes localTb localTts : Nat) (recv : SigVec),
      (signals_sync_tail (maxCounter ss) localNodes localTb localTts
        recv s).signalsCallCounter = maxCounter ss ∧
      (signals_sync_tail (maxCounter ss) localNodes localTb localTts
        recv s).reqOutstanding = false ∧
      syncSendsIssued (maxCounter ss) s ≤ 1 ∧
      (syncSendsIssued (maxCounter ss) s = 1 ↔
        s.signalsCallCounter < maxCounter ss) ∧
      (signals_sync_tail (maxCounter ss) localNodes localTb localTts
          recv s).signalsCallCounter =
        s.signalsCallCounter + syncSendsIssued (maxCounter ss) s := by
    intro ss hlag s hs localNodes localTb localTts recv
    have hle := le_maxCounter ss s hs
    have hl1 := hlag s hs
    by_cases hc : s.signalsCallCounter < maxCounter ss
    · have hcnt : (signals_sync_tail (maxCounter ss) localNodes localTb
          localTts recv s).signalsCallCounter =
          s.signalsCallCounter + 1 := by
        rw [signals_sync_tail, if_pos hc]
        rfl
      refine ⟨by rw [hcnt]; omega, ?_, ?_, ?_, ?_⟩
      · rw [signals_sync_tail, if_pos hc]
        rfl
      · rw [syncSendsIssued, if_pos hc]
      · rw [syncSendsIssued, if_pos hc]
        simp [hc]
      · rw [hcnt, syncSendsIssued, if_pos hc]
    · have hcnt : (signals_sync_tail (maxCounter ss) localNodes localTb
          localTts recv s).signalsCallCounter =
          s.signalsCallCounter := by
        rw [signals_sync_tail, if_neg hc]
        rfl
      refine ⟨by rw [hcnt]; omega, ?_, ?_, ?_, ?_⟩
      · rw [signals_sync_tail, if_neg hc]
        rfl
      · rw [syncSendsIssued, if_neg hc]
        omega
      · rw [syncSendsIssued, if_neg hc]
        simp [hc]
      · rw [hcnt, syncSendsIssued, if_neg hc]
        omega
  refine ⟨hspin, hkey, ?_⟩
  intro ss hlag s1 hs1 s2 hs2 a1 a2 a3 r1 b1 b2 b3 r2
  rw [(hkey ss hlag s1 hs1 a1 a2 a3 r1).1, (hkey ss hlag s2 hs2 b1 b2
    b3 r2).1]

/-- Witness for C7: the spin-loop clause applied at a state whose stop
count is already 4 of 4, and the drain clause applied to the concrete
four-rank family with counters 100, 100, 100, 99 (the lagging rank
catches up to 100). -/
theorem claim_C7_witness :
    (sync_spin 4 [] (wSig 99) = some (wSig 99) ∧
      4 ≤ (wSig 99).stopSignalsPosted) ∧
    ((∀ s ∈ wSS, maxCounter wSS ≤ s.signalsCallCounter + 1) ∧
      (signals_sync_tail (maxCounter wSS) 0 0 0 ⟨0, 0, 0, 0⟩
        (wSig 99)).signalsCallCounter = maxCounter wSS ∧
      (signals_sync_tail (maxCounter wSS) 0 0 0 ⟨0, 0, 0, 0⟩
        (wSig 100)).signalsCallCounter = maxCounter wSS) := by
  refine ⟨⟨by decide, ?_⟩, by decide, ?_, ?_⟩
  · exact claim_C7.1 4 [] (wSig 99) (wSig 99) (by decide)
  · exact (claim_C7.2.1 wSS (by decide) (wSig 99) (by decide) 0 0 0
      ⟨0, 0, 0, 0⟩).1
  · exact (claim_C7.2.1 wSS (by decide) (wSig 100) (by decide) 0 0 0
      ⟨0, 0, 0, 0⟩).1

/-! ## C8: the single-rank accessors -/

theorem sub64_mod64_self (a : Nat) : sub64 (mod64 a) a = 0 := by
  simp only [sub64, mod64]
  omega

/-- C8: in every single-rank signal state reachable from `signals_init`
by complete signal rounds (where the sum-all-reduce receives only the
own contribution), all three `others` counters are zero, so
`nodes_searched`, `tb_hits` and `TT_saves` return exactly the local
thread-pool totals — the same values as the accessors of the build
without the transport. -/
theorem claim_C8 (s : SignalsState) (h : Reach1 s) :
    s.nodesSearchedOthers = 0 ∧ s.tbHitsOthers = 0 ∧
    s.TTsavesOthers = 0 ∧
    (∀ localNodes, localNodes < 18446744073709551616 →
      nodes_searched s localNodes = nodes_searched_noMPI localNodes) ∧
    (∀ localTb, localTb < 18446744073709551616 →
      tb_hits s localTb = tb_hits_noMPI localTb) ∧
    (∀ localTts, localTts < 18446744073709551616 →
      TT_saves s localTts = TT_saves_noMPI localTts) := by
  have key : s.nodesSearchedOthers = 0 ∧ s.tbHitsOthers = 0 ∧
      s.TTsavesOthers = 0 := by
    induction h with
    | init s0 => exact ⟨rfl, rfl, rfl⟩
    | step s0 n tb tts hr ih =>
      refine ⟨?_, ?_, ?_⟩ <;>
        simp [signals_process, completeRecv, allreduceSum, signals_send,
          sub64_mod64_self]
  rcases key with ⟨h1, h2, h3⟩
  refine ⟨h1, h2, h3, ?_, ?_, ?_⟩
  · intro n hn
    rw [nodes_searched, h1, nodes_searched_noMPI]
    simp only [mod64]
    omega
  · intro n hn
    rw [tb_hits, h2, tb_hits_noMPI]
    simp only [mod64]
    omega
  · intro n hn
    rw [TT_saves, h3, TT_saves_noMPI]
    simp only [mod64]
    omega

/-- Witness for C8: the accessors agree with the transport-free build
both right after `signals_init` and after one complete signal round with
local totals 5, 6, 7. -/
theorem claim_C8_witness :
    nodes_searched wStep1 5 = nodes_searched_noMPI 5 ∧
    tb_hits wStep1 6 = tb_hits_noMPI 6 ∧
    TT_saves wStep1 7 = TT_saves_noMPI 7 ∧
    nodes_searched (signals_init (wSig 3)) 5 = nodes_searched_noMPI 5 := by
  have hr : Reach1 wStep1 :=
    Reach1.step (signals_init (wSig 3)) 5 6 7 (Reach1.init (wSig 3))
  exact ⟨(claim_C8 wStep1 hr).2.2.2.1 5 (by decide),
    (claim_C8 wStep1 hr).2.2.2.2.1 6 (by decide),
    (claim_C8 wStep1 hr).2.2.2.2.2 7 (by decide),
    (claim_C8 (signals_init (wSig 3)) (Reach1.init (wSig 3))).2.2.2.1 5
      (by decide)⟩

/-! ## C9: the writers of the `sendRecvPosted` counter -/

theorem handle_buffer_srp (rank size C : Nat) (cc : ClusterCache)
    (srp : Nat) : (handle_buffer rank size C cc srp).1.2 = srp + 1 := rfl

theorem save_srp (rank size C : Nat) (isMain flag : Bool)
    (ts : ThreadState) (srp callsCnt : Nat) (k : Nat) (v : Int)
    (PvHit : Bool) (b : Nat) (d : Int) (m : Nat) (ev : Int) :
    (save rank size C isMain flag ts srp callsCnt k v PvHit b d m
      ev).sendRecvPosted =
      if (save rank size C isMain flag ts srp callsCnt k v PvHit b d m
          ev).roundPerformed then srp + 2 else srp := by
  by_cases h1 : 3 * ONE_PLY < d
  · by_cases h2 : C ≤ (ts.ttCache.replace
        ⟨k, ⟨d, v, ev, m, b, PvHit⟩⟩).2.TTCacheCounter
    · by_cases h3 : flag = true
      · rw [save, if_pos h1, if_pos h2, if_pos h3]
        simp [handle_buffer_srp]
      · rw [save, if_pos h1, if_pos h2, if_neg h3]
        simp
    · rw [save, if_pos h1, if_neg h2]
      simp
  · rw [save, if_neg h1]
    simp

/-- C9 (counterexample to the literal claim): `signals_init` writes
`sendRecvPosted` (it zeroes it), and `save` writes it beyond the
increment done inside `handle_buffer` (a successful round advances it by
two, the second increment being `save`'s own) — so `handle_buffer` is
not the only writer. -/
theorem claim_C9_counterexample :
    (rs_signals_init wRank).sendRecvPosted ≠ wRank.sendRecvPosted ∧
    (rs_handle_buffer 0 2 1 wRank).sendRecvPosted =
      wRank.sendRecvPosted + 1 ∧
    (rs_save 0 2 1 false true 13 5 false 1 4 2 0
        wRank).sendRecvPosted ≠ wRank.sendRecvPosted + 1 ∧
    (rs_save 0 2 1 false true 13 5 false 1 4 2 0
        wRank).sendRecvPosted = wRank.sendRecvPosted + 2 := by decide

/-- C9 (amended): the exact effect of every operation on
`sendRecvPosted` — `signals_send`, `signals_process`, `signals_poll` and
`cluster_info` never write it; `signals_init` and the ClusterCache
constructor reset it to zero; `handle_buffer` increments it by one; and
`save` leaves it unchanged when no round is performed and advances it by
two (the round's increment plus its own) when a round is performed. -/
theorem claim_C9 :
    (∀ (n tb tts : Nat) (stop : Bool) (rs : RankState),
      (rs_signals_send n tb tts stop rs).sendRecvPosted =
        rs.sendRecvPosted) ∧
    (∀ rs : RankState,
      (rs_signals_process rs).sendRecvPosted = rs.sendRecvPosted) ∧
    (∀ (flag : Bool) (recv : SigVec) (n tb tts : Nat) (rs : RankState),
      (rs_signals_poll flag recv n tb tts rs).sendRecvPosted =
        rs.sendRecvPosted) ∧
    (∀ rs : RankState,
      (rs_cluster_info rs).sendRecvPosted = rs.sendRecvPosted) ∧
    (∀ rs : RankState, (rs_signals_init rs).sendRecvPosted = 0) ∧
    (∀ (C size : Nat) (rs : RankState),
      (rs_cc_ctor C size rs).sendRecvPosted = 0) ∧
    (∀ (rank size C : Nat) (rs : RankState),
      (rs_handle_buffer rank size C rs).sendRecvPosted =
        rs.sendRecvPosted + 1) ∧
    (∀ (rank size C : Nat) (isMain flag : Bool) (k : Nat) (v : Int)
        (PvHit : Bool) (b : Nat) (d : Int) (m : Nat) (ev : Int)
        (rs : RankState),
      (rs_save rank size C isMain flag k v PvHit b d m ev
          rs).sendRecvPosted =
        if (save rank size C isMain flag ⟨rs.TTsaves, rs.cache⟩
            rs.sendRecvPosted rs.callsCnt k v PvHit b d m
            ev).roundPerformed then rs.sendRecvPosted + 2
        else rs.sendRecvPosted) :=
  ⟨fun _ _ _ _ _ => rfl, fun _ => rfl, fun _ _ _ _ _ _ => rfl,
    fun _ => rfl, fun _ => rfl, fun _ _ _ => rfl, fun _ _ _ _ => rfl,
    fun rank size C isMain flag k v PvHit b d m ev rs =>
      save_srp rank size C isMain flag ⟨rs.TTsaves, rs.cache⟩
        rs.sendRecvPosted rs.callsCnt k v PvHit b d m ev⟩

/-! ## C10: the diagnostic-line divisor -/

/-- C10: `cluster_info` uses the divisor `Time.elapsed() + 1` for all
three per-second rates, so with a non-negative elapsed time the divisor
is never zero and no division divides by zero. -/
theorem claim_C10 (depth elapsed0 : Int) (sigCnt srp tts C size : Nat)
    (h : 0 ≤ elapsed0) :
    (cluster_info depth elapsed0 sigCnt srp tts C size).divisor =
      elapsed0 + 1 ∧
    (cluster_info depth elapsed0 sigCnt srp tts C size).divisor ≠ 0 ∧
    (cluster_info depth elapsed0 sigCnt srp tts C size).sps =
      (sigCnt * 1000 : Int) /
        (cluster_info depth elapsed0 sigCnt srp tts C size).divisor ∧
    (cluster_info depth elapsed0 sigCnt srp tts C size).srpps =
      ((C * size * srp * 1000 : Nat) : Int) /
        (cluster_info depth elapsed0 sigCnt srp tts C size).divisor ∧
    (cluster_info depth elapsed0 sigCnt srp tts C size).ttSavesps =
      (tts * 1000 : Int) /
        (cluster_info depth elapsed0 sigCnt srp tts C size).divisor := by
  refine ⟨rfl, ?_, rfl, rfl, rfl⟩
  show elapsed0 + 1 ≠ 0
  omega

/-- Witness for C10: a call at zero elapsed time still divides by the
nonzero divisor 1. -/
theorem claim_C10_witness :
    (0 : Int) ≤ 0 ∧
    ((cluster_info 4 0 10 20 30 8 2).divisor = 0 + 1 ∧
      (cluster_info 4 0 10 20 30 8 2).divisor ≠ 0 ∧
      (cluster_info 4 0 10 20 30 8 2).sps =
        ((10 : Nat) * 1000 : Int) / (cluster_info 4 0 10 20 30 8 2).divisor ∧
      (cluster_info 4 0 10 20 30 8 2).srpps =
        ((8 * 2 * 20 * 1000 : Nat) : Int) /
          (cluster_info 4 0 10 20 30 8 2).divisor ∧
      (cluster_info 4 0 10 20 30 8 2).ttSavesps =
        ((30 : Nat) * 1000 : Int) /
          (cluster_info 4 0 10 20 30 8 2).divisor) :=
  ⟨by decide, claim_C10 4 0 10 20 30 8 2 (by decide)⟩

end Cluster
